import Mathlib

/-!
Verification development for the search-and-analyze scraper service
(src/scraper/scraper.py).  The Python source is shallowly embedded: text is
`List Char`, Python string primitives (`split`, `splitlines`, `strip`,
`lower`, substring tests) are executable Lean functions over it, and the
stateful orchestrator (`search_and_scrape`, `persist_result`) is explicit
state passing over a system-state record.  External effects (HTTP fetches,
the readability library, database failures) are oracle parameters.
-/

set_option maxRecDepth 100000
set_option maxHeartbeats 2000000

namespace Scraper

/-- Text is modelled as a list of characters. -/
abbrev PStr := List Char

/-- Code points Python treats as whitespace for `str.split()` / `str.strip()`. -/
def pySpaceCodes : List Nat :=
  [9, 10, 11, 12, 13, 28, 29, 30, 31, 32, 133, 160, 5760,
   8192, 8193, 8194, 8195, 8196, 8197, 8198, 8199, 8200, 8201, 8202,
   8232, 8233, 8239, 8287, 12288]

/-- Whitespace in the sense of Python `str.split()` / `str.strip()`. -/
def isPySpace (c : Char) : Bool := pySpaceCodes.contains c.toNat

/-- Code points Python `str.splitlines()` treats as line boundaries. -/
def lineBoundaryCodes : List Nat :=
  [10, 11, 12, 13, 28, 29, 30, 133, 8232, 8233]

/-- Line-boundary test in the sense of Python `str.splitlines()`. -/
def isLineBoundary (c : Char) : Bool := lineBoundaryCodes.contains c.toNat

/-- Accumulator-style worker for Python `str.split()` (split on whitespace
runs, no empty words). -/
def pySplitGo : List Char → List Char → List (List Char)
  | [], acc => if acc.isEmpty then [] else [acc.reverse]
  | c :: cs, acc =>
    if isPySpace c then
      if acc.isEmpty then pySplitGo cs [] else acc.reverse :: pySplitGo cs []
    else pySplitGo cs (c :: acc)

/-- Python `text.split()` with no argument. -/
def pySplit (s : PStr) : List PStr := pySplitGo s []

/-- Accumulator-style worker for Python `str.splitlines()`; a `\r\n` pair
counts as a single boundary. -/
def pySplitlinesGo : List Char → List Char → List (List Char)
  | [], acc => if acc.isEmpty then [] else [acc.reverse]
  | '\r' :: '\n' :: cs, acc => acc.reverse :: pySplitlinesGo cs []
  | c :: cs, acc =>
    if isLineBoundary c then acc.reverse :: pySplitlinesGo cs []
    else pySplitlinesGo cs (c :: acc)

/-- Python `text.splitlines()`. -/
def pySplitlines (s : PStr) : List PStr := pySplitlinesGo s []

/-- Drop leading Python-whitespace, i.e. Python `str.lstrip()`. -/
def pyStripLeft (s : PStr) : PStr := s.dropWhile isPySpace

/-- Drop trailing Python-whitespace, i.e. Python `str.rstrip()`. -/
def pyStripRight (s : PStr) : PStr := (pyStripLeft s.reverse).reverse

/-- Python `str.strip()`. -/
def pyStrip (s : PStr) : PStr := pyStripRight (pyStripLeft s)

/-- Python `str.lower()`; the embedding lowers basic latin letters, which is
Python's behaviour on ASCII text. -/
def lowerStr (s : PStr) : PStr := s.map Char.toLower

/-- Boolean test that the first argument is an initial segment of the
second, i.e. Python `str.startswith` for a single pattern. -/
def startsWithL : List Char → List Char → Bool
  | [], _ => true
  | _ :: _, [] => false
  | c :: p, d :: s => c = d && startsWithL p s

/-- Boolean substring test: Python `pat in s`, and also `re.search` for the
purely literal patterns used by the scraper. -/
def hasSubstr : List Char → List Char → Bool
  | p, [] => startsWithL p []
  | p, d :: s' => startsWithL p (d :: s') || hasSubstr p s'

/-- Join a list of lines with a single newline, i.e. Python
`"\n".join(lines)`. -/
def joinNL : List PStr → PStr
  | [] => []
  | [l] => l
  | l :: L => l ++ '\n' :: joinNL L

/-- Cookie-banner phrase patterns of `remove_cookie_banners`
(src/scraper/scraper.py line 76); the regexes are literal strings. -/
def cookiePatterns : List PStr :=
  ["we use cookies".toList, "cookie policy".toList, "accept all".toList,
   "reject all".toList, "gdpr".toList, "privacy settings".toList]

/-- Drop condition of the cookie-banner filter: fewer than 15 words and some
cookie pattern found in the lowercased line (scraper.py line 80). -/
def cookieDrop (line : PStr) : Bool :=
  decide ((pySplit line).length < 15) &&
    cookiePatterns.any (fun pat => hasSubstr pat (lowerStr line))

/-- Embedding of `remove_cookie_banners` (scraper.py lines 75-83). -/
def remove_cookie_banners (text : PStr) : PStr :=
  joinNL ((pySplitlines text).filter (fun line => !cookieDrop line))

/-- Navigation phrases of `remove_navigation` (scraper.py line 86). -/
def navPhrases : List PStr :=
  ["log in".toList, "sign up".toList, "menu".toList,
   "what can i help with".toList]

/-- Drop condition of the navigation filter: the trimmed lowercased line
contains a navigation phrase and has at most 5 words (scraper.py line 90). -/
def navDrop (line : PStr) : Bool :=
  (navPhrases.any (fun ph => hasSubstr ph (pyStrip (lowerStr line)))) &&
    decide ((pySplit (pyStrip (lowerStr line))).length ≤ 5)

/-- Embedding of `remove_navigation` (scraper.py lines 85-93). -/
def remove_navigation (text : PStr) : PStr :=
  joinNL ((pySplitlines text).filter (fun line => !navDrop line))

/-- Embedding of `clean_extracted_text` (scraper.py lines 95-98). -/
def clean_extracted_text (text : PStr) : PStr :=
  pyStrip (remove_navigation (remove_cookie_banners text))

/-- Embedding of `is_valid_content` (scraper.py lines 100-102). -/
def is_valid_content (text : PStr) (min_words : Nat := 50) : Bool :=
  decide (min_words ≤ (pySplit text).length) &&
    !(startsWithL "we use cookies".toList (lowerStr text) ||
      startsWithL "cookie policy".toList (lowerStr text))

/-- Sentinel string returned by `try_scrape` when every strategy fails
(scraper.py line 146). -/
def failedMessage : PStr := "Failed to extract valid content.".toList

/-- Embedding of `extract_article` (scraper.py lines 118-129).  The two
external HTML-processing collaborators are oracle inputs: `primaryText` is
the text produced by the readability `Document` summary path (`none` when
that path raises), and `wholeText` is `BeautifulSoup(html).get_text` over
the entire page.  The control flow (exception to empty string, word-count
fallback, final cleaning) is the source's. -/
def extract_article (primaryText : Option PStr) (wholeText : PStr) : PStr :=
  let content := match primaryText with
    | none => []
    | some t => t
  let content := if (pySplit content).length < 50 then wholeText else content
  clean_extracted_text content

/-- Names of the three fetch strategies (scraper.py lines 105-116). -/
inductive Strategy where
  | strategy_requests
  | strategy_cloudscraper
  | strategy_requests_html
deriving DecidableEq, Repr

/-- Strategy list built by `try_scrape` (scraper.py lines 132-134): the two
fixed strategies, then the rendered fetch only when requests_html is
importable. -/
def strategyList (HAS_REQUESTS_HTML : Bool) : List Strategy :=
  [Strategy.strategy_requests, Strategy.strategy_cloudscraper] ++
    (if HAS_REQUESTS_HTML then [Strategy.strategy_requests_html] else [])

/-- Loop body of `try_scrape` over a strategy list (scraper.py lines
136-146).  `fetch` is the network oracle (`none` when the strategy raises),
`primary`/`whole` are the per-HTML extraction oracles passed on to
`extract_article`.  Besides the source's return value it also records the
list of strategies that were invoked. -/
def tryScrapeGo (fetch : Strategy → Option PStr) (primary : PStr → Option PStr)
    (whole : PStr → PStr) : List Strategy → PStr × List Strategy
  | [] => (failedMessage, [])
  | s :: rest =>
    match fetch s with
    | none =>
      let r := tryScrapeGo fetch primary whole rest
      (r.1, s :: r.2)
    | some html =>
      let article := extract_article (primary html) (whole html)
      if is_valid_content article then (article, [s])
      else
        let r := tryScrapeGo fetch primary whole rest
        (r.1, s :: r.2)

/-- Embedding of `try_scrape` (scraper.py lines 131-146). -/
def try_scrape (fetch : Strategy → Option PStr) (primary : PStr → Option PStr)
    (whole : PStr → PStr) (HAS_REQUESTS_HTML : Bool) : PStr × List Strategy :=
  tryScrapeGo fetch primary whole (strategyList HAS_REQUESTS_HTML)

/-- One search result returned by the SearxNG call, as consumed by the loop
(scraper.py lines 197-214): a JSON object whose fields may be absent. -/
structure SearchResultR where
  url : Option PStr
  title : Option PStr
  content : Option PStr
  engine : Option PStr
deriving DecidableEq, Repr

/-- Row of the `scraped_results` table (scraper.py lines 43-54).  The JSONB
payload is kept as the originating search result; the random embedding is
modelled as an uninterpreted text field. -/
structure ScrapedResultR where
  query : PStr
  title : PStr
  url : PStr
  description : PStr
  engine_name : PStr
  searxng_json : SearchResultR
  extracted_content : PStr
  embedding : PStr
deriving DecidableEq, Repr

/-- System state threaded through the orchestrator: the durable store rows,
the Redis `scraped:` markers as url-TTL pairs, and a log of the URLs for
which `try_scrape` (a network fetch) was invoked. -/
structure SysState where
  db : List ScrapedResultR
  markers : List (PStr × Nat)
  fetchLog : List PStr
deriving DecidableEq, Repr

/-- Existence check `redis_client.exists("scraped:" + url)`. -/
def markerExists (st : SysState) (url : PStr) : Bool :=
  st.markers.any (fun m => m.1 = url)

/-- Placeholder embedding function (scraper.py lines 39-40); the random
vector is modelled as an uninterpreted constant text. -/
def compute_embedding (_text : PStr) : PStr := "[]".toList

/-- Embedding of `persist_result` (scraper.py lines 149-170).  `dbFail`
models a durable-store write failure other than the unique constraint; the
unique `url` column makes the commit fail whenever the URL is already
stored.  On any failure the transaction is rolled back and the marker write
on line 165 is not reached; on success the marker is set with 24h TTL. -/
def persist_result (dbFail : Bool) (query : PStr) (result : SearchResultR)
    (scraped_content : PStr) (st : SysState) : SysState :=
  let u := result.url.getD []
  if dbFail || st.db.any (fun r => r.url = u) then st
  else
    let row : ScrapedResultR :=
      { query := query
        title := (result.title.getD "No Title".toList).take 500
        url := u
        description := (result.content.getD "No Description".toList).take 1000
        engine_name := result.engine.getD "Unknown".toList
        searxng_json := result
        extracted_content := scraped_content.take 10000
        embedding := compute_embedding scraped_content }
    { st with db := st.db ++ [row], markers := (u, 86400) :: st.markers }

/-- Embedding of `get_existing_urls` (scraper.py lines 172-176): the subset
of the candidate URLs already present in the durable store. -/
def get_existing_urls (db : List ScrapedResultR) (urls : List PStr) : List PStr :=
  urls.filter (fun u => db.any (fun r => r.url = u))

/-- One iteration of the per-URL loop of `search_and_scrape` (scraper.py
lines 200-214).  `scrape` is the oracle for what `try_scrape` returns for a
URL and `dbFails` the oracle for durable-store write failures.  Note that
the skip branch writes nothing, and that the marker write on line 213 runs
whenever `"Failed"` does not occur in the content, regardless of whether
`persist_result` succeeded. -/
def processResult (query : PStr) (scrape : PStr → PStr) (dbFails : PStr → Bool)
    (existing : List PStr) (st : SysState) (result : SearchResultR) : SysState :=
  match result.url with
  | none => st
  | some url =>
    if markerExists st url || existing.contains url then st
    else
      let content := scrape url
      let st1 := { st with fetchLog := st.fetchLog ++ [url] }
      if hasSubstr "Failed".toList content then st1
      else
        let st2 := persist_result (dbFails url) query result content st1
        { st2 with markers := (url, 86400) :: st2.markers }

/-- The per-URL loop of `search_and_scrape` (scraper.py lines 200-214). -/
def searchLoop (query : PStr) (scrape : PStr → PStr) (dbFails : PStr → Bool)
    (existing : List PStr) : List SearchResultR → SysState → SysState
  | [], st => st
  | result :: rest, st =>
    searchLoop query scrape dbFails existing rest
      (processResult query scrape dbFails existing st result)

/-- Embedding of `search_and_scrape` (scraper.py lines 185-214) given the
candidate list the SearxNG call produced (a failed call degrades to `[]`
before this point). -/
def search_and_scrape (query : PStr) (results : List SearchResultR)
    (scrape : PStr → PStr) (dbFails : PStr → Bool) (st : SysState) : SysState :=
  let urls := results.filterMap (fun r => r.url)
  let existing := get_existing_urls st.db urls
  searchLoop query scrape dbFails existing results st

/-- Embedding of `compress_results` (scraper.py lines 178-182).  The Python
`set` has no specified iteration order; the embedding fixes the order by
deduplicating the concatenated line lists, which realises "each distinct
line exactly once" the same way the set does. -/
def compressLines (results : List ScrapedResultR) : List PStr :=
  ((results.map (fun r => pySplitlines r.extracted_content)).flatten).dedup

/-- The compressed blob `"\n".join(unique_lines)` (scraper.py line 182). -/
def compress_results (results : List ScrapedResultR) : PStr :=
  joinNL (compressLines results)

/-- Test whether `f` accepts some suffix of the string (used for the `%`
wildcard of SQL LIKE). -/
def likeSuffix (f : List Char → Bool) : List Char → Bool
  | [] => f []
  | d :: s' => f (d :: s') || likeSuffix f s'

/-- SQL LIKE pattern matching as used by PostgreSQL: `%` matches any
sequence, `_` any single character, and a backslash escapes the following
character (the default escape). -/
def likeMatch : List Char → List Char → Bool
  | [], s => s.isEmpty
  | '%' :: p, s => likeSuffix (likeMatch p) s
  | '_' :: _, [] => false
  | '_' :: p, _ :: s' => likeMatch p s'
  | '\\' :: _ :: _, [] => false
  | '\\' :: c :: p, d :: s' => c = d && likeMatch p s'
  | _ :: _, [] => false
  | c :: p, d :: s' => c = d && likeMatch p s'

/-- The record filter `ScrapedResult.query.ilike(f"%{query}%")` used by the
`/scrape` endpoint (scraper.py line 231): case-insensitive LIKE against the
pattern `%query%`. -/
def ilikeContains (query field : PStr) : Bool :=
  likeMatch (lowerStr ('%' :: (query ++ ['%']))) (lowerStr field)

/-- The aggregation step of `scrape_query` (scraper.py lines 230-234): the
compressed blob over the durable records matching the ILIKE filter. -/
def scrape_query_blob (db : List ScrapedResultR) (query : PStr) : PStr :=
  compress_results (db.filter (fun r => ilikeContains query r.query))

/-- Outcome of the input handling of the `/scrape` endpoint. -/
inductive ScrapeDecision where
  | badRequest
  | proceed (redis_key : PStr) (pipelineQuery : PStr)
deriving DecidableEq, Repr

/-- Input handling of `scrape_query` (scraper.py lines 217-228): the `q`
parameter defaults to the empty string, is stripped, and an empty result is
rejected with HTTP 400 before the answer-cache lookup and before
`search_and_scrape`; otherwise the cache key `results:query` and the
pipeline both use the stripped value. -/
def scrape_query_decision (qParam : Option PStr) : ScrapeDecision :=
  let query := pyStrip (qParam.getD [])
  if query.isEmpty then ScrapeDecision.badRequest
  else ScrapeDecision.proceed ("results:".toList ++ query) query

/-! Basic character-level lemmas. -/

theorem char_eq_iff_toNat {c d : Char} : c = d ↔ c.toNat = d.toNat := by
  constructor
  · intro h; rw [h]
  · intro h; rw [← Char.ofNat_toNat c, ← Char.ofNat_toNat d, h]

theorem toNat_ofNat_valid {n : Nat} (h : n.isValidChar) :
    (Char.ofNat n).toNat = n := by
  simp only [Char.ofNat, h, dite_true, Char.ofNatAux, Char.toNat]
  simp [UInt32.toNat]

theorem toLower_toNat (c : Char) :
    (Char.toLower c).toNat =
      if 65 ≤ c.toNat ∧ c.toNat ≤ 90 then c.toNat + 32 else c.toNat := by
  show (if c.toNat ≥ 65 ∧ c.toNat ≤ 90 then Char.ofNat (c.toNat + 32)
    else c).toNat = _
  by_cases h : 65 ≤ c.toNat ∧ c.toNat ≤ 90
  · rw [if_pos (⟨h.1, h.2⟩ : c.toNat ≥ 65 ∧ c.toNat ≤ 90), if_pos h,
      toNat_ofNat_valid (Or.inl (by omega))]
  · rw [if_neg (fun hc => h ⟨hc.1, hc.2⟩), if_neg h]

theorem contains_false_of_range {codes : List Nat} {n : Nat}
    (h : ∀ m ∈ codes, ¬ (65 ≤ m ∧ m ≤ 122)) (h1 : 65 ≤ n) (h2 : n ≤ 122) :
    codes.contains n = false := by
  by_contra hc
  rw [Bool.not_eq_false, List.contains_iff_exists_mem_beq] at hc
  obtain ⟨m, hm, hbeq⟩ := hc
  have : n = m := eq_of_beq hbeq
  exact h m hm (this ▸ ⟨h1, h2⟩)

theorem pySpaceCodes_no_letters : ∀ m ∈ pySpaceCodes, ¬ (65 ≤ m ∧ m ≤ 122) := by
  intro m hm
  simp [pySpaceCodes] at hm
  rcases hm with h | h | h | h | h | h | h | h | h | h | h | h | h | h | h |
    h | h | h | h | h | h | h | h | h | h | h | h | h | h <;> omega

/-- Lowercasing does not change whether a character is Python whitespace. -/
theorem isPySpace_toLower (c : Char) : isPySpace (Char.toLower c) = isPySpace c := by
  unfold isPySpace
  rw [toLower_toNat]
  by_cases h : 65 ≤ c.toNat ∧ c.toNat ≤ 90
  · rw [if_pos h]
    rw [contains_false_of_range pySpaceCodes_no_letters h.1 (by omega),
      contains_false_of_range pySpaceCodes_no_letters (by omega) (by omega)]
  · rw [if_neg h]

/-- Whitespace characters are unchanged by lowercasing. -/
theorem toLower_of_isPySpace {c : Char} (h : isPySpace c = true) :
    Char.toLower c = c := by
  rw [char_eq_iff_toNat, toLower_toNat]
  have : ¬ (65 ≤ c.toNat ∧ c.toNat ≤ 90) := by
    intro hr
    have := contains_false_of_range pySpaceCodes_no_letters hr.1 (by omega)
    rw [isPySpace, this] at h
    exact Bool.false_ne_true h
  rw [if_neg this]

/-- Every Python line-boundary character is Python whitespace. -/
theorem isPySpace_of_isLineBoundary {c : Char} (h : isLineBoundary c = true) :
    isPySpace c = true := by
  rw [isLineBoundary, List.contains_iff_exists_mem_beq] at h
  obtain ⟨m, hm, hbeq⟩ := h
  have he : c.toNat = m := eq_of_beq hbeq
  rw [isPySpace, he]
  simp [lineBoundaryCodes] at hm
  rcases hm with h | h | h | h | h | h | h | h | h | h <;> subst h <;> decide

theorem newline_isPySpace : isPySpace '\n' = true := by decide

theorem newline_isLineBoundary : isLineBoundary '\n' = true := by decide

/-! Lemmas about Python strip. -/

theorem dropWhile_of_all {p : Char → Bool} {u : PStr} (h : ∀ c ∈ u, p c = true)
    {v : PStr} : (u ++ v).dropWhile p = v.dropWhile p := by
  induction u with
  | nil => rfl
  | cons c u ih =>
    rw [List.cons_append, List.dropWhile_cons, if_pos (h c (by simp))]
    exact ih (fun d hd => h d (by simp [hd]))

theorem pyStripLeft_ws_append {u : PStr} (h : ∀ c ∈ u, isPySpace c = true)
    (v : PStr) : pyStripLeft (u ++ v) = pyStripLeft v :=
  dropWhile_of_all h

theorem pyStripLeft_append_of_not_all {v : PStr}
    (h : ¬ ∀ c ∈ v, isPySpace c = true) (w : PStr) :
    pyStripLeft (v ++ w) = pyStripLeft v ++ w := by
  unfold pyStripLeft
  rw [List.dropWhile_append]
  have hne : ¬ (v.dropWhile isPySpace).isEmpty = true := by
    intro he
    apply h
    intro c hc
    have := List.takeWhile_append_dropWhile (p := isPySpace) (l := v)
    rw [List.isEmpty_iff] at he
    rw [he, List.append_nil] at this
    have hmem : c ∈ v.takeWhile isPySpace := by rw [this]; exact hc
    exact List.mem_takeWhile_imp hmem
  rw [if_neg hne]

theorem pyStripLeft_all_ws {v : PStr} (h : ∀ c ∈ v, isPySpace c = true) :
    pyStripLeft v = [] := by
  have := pyStripLeft_ws_append h (v := [])
  simpa using this

theorem pyStripRight_append_ws {w : PStr} (h : ∀ c ∈ w, isPySpace c = true)
    (v : PStr) : pyStripRight (v ++ w) = pyStripRight v := by
  unfold pyStripRight
  rw [List.reverse_append,
    pyStripLeft_ws_append (fun c hc => h c (List.mem_reverse.mp hc))]

/-- Stripping a string sandwiched between whitespace is stripping the core. -/
theorem pyStrip_sandwich {u w : PStr} (hu : ∀ c ∈ u, isPySpace c = true)
    (hw : ∀ c ∈ w, isPySpace c = true) (v : PStr) :
    pyStrip (u ++ v ++ w) = pyStrip v := by
  unfold pyStrip
  rw [List.append_assoc, pyStripLeft_ws_append hu]
  by_cases hv : ∀ c ∈ v, isPySpace c = true
  · rw [pyStripLeft_all_ws (v := v ++ w) (by
      intro c hc
      rcases List.mem_append.mp hc with h | h
      · exact hv c h
      · exact hw c h), pyStripLeft_all_ws hv]
  · rw [pyStripLeft_append_of_not_all hv, pyStripRight_append_ws hw]

/-- Decomposition of a string into leading whitespace, its strip, and
trailing whitespace. -/
theorem pyStrip_decomp (s : PStr) :
    ∃ u w, s = u ++ pyStrip s ++ w ∧ (∀ c ∈ u, isPySpace c = true) ∧
      (∀ c ∈ w, isPySpace c = true) := by
  refine ⟨s.takeWhile isPySpace,
    ((pyStripLeft s).reverse.takeWhile isPySpace).reverse, ?_, ?_, ?_⟩
  · have h1 : pyStripLeft s =
        pyStrip s ++ ((pyStripLeft s).reverse.takeWhile isPySpace).reverse := by
      show pyStripLeft s = ((pyStripLeft s).reverse.dropWhile isPySpace).reverse
        ++ ((pyStripLeft s).reverse.takeWhile isPySpace).reverse
      conv_lhs => rw [← List.reverse_reverse (pyStripLeft s)]
      rw [← List.reverse_append, List.takeWhile_append_dropWhile]
    conv_lhs => rw [← List.takeWhile_append_dropWhile (p := isPySpace) (l := s)]
    rw [List.append_assoc]
    rw [← h1]
    rfl
  · exact fun c hc => List.mem_takeWhile_imp hc
  · exact fun c hc => List.mem_takeWhile_imp (List.mem_reverse.mp hc)

/-- Python strip is idempotent. -/
theorem pyStrip_idem (s : PStr) : pyStrip (pyStrip s) = pyStrip s := by
  obtain ⟨u, w, hs, hu, hw⟩ := pyStrip_decomp s
  conv_rhs => rw [hs]
  rw [pyStrip_sandwich hu hw]

theorem dropWhile_head_not {p : Char → Bool} {l : PStr} {c : Char}
    (h : (l.dropWhile p).head? = some c) : p c = false := by
  have := List.head?_dropWhile_not p l
  rw [h] at this
  exact this

/-- A nonempty stripped string starts with a non-whitespace character. -/
theorem pyStrip_head_not_ws {s : PStr} {c : Char}
    (h : (pyStrip s).head? = some c) : isPySpace c = false := by
  have hpre : pyStrip s <+: pyStripLeft s := by
    unfold pyStrip pyStripRight
    conv_rhs => rw [← List.reverse_reverse (pyStripLeft s)]
    exact List.reverse_prefix.mpr (List.dropWhile_suffix isPySpace)
  obtain ⟨r, hr⟩ := hpre
  have hh : (pyStripLeft s).head? = some c := by
    rw [← hr]
    cases hps : pyStrip s with
    | nil => rw [hps] at h; simp at h
    | cons d t =>
      rw [hps] at h
      simp at h
      subst h
      simp
  exact dropWhile_head_not hh

/-- A nonempty stripped string ends with a non-whitespace character. -/
theorem pyStrip_getLast_not_ws {s : PStr} {c : Char}
    (h : (pyStrip s).getLast? = some c) : isPySpace c = false := by
  unfold pyStrip pyStripRight at h
  rw [List.getLast?_reverse] at h
  exact dropWhile_head_not h

/-! Word counting, stated independently of the splitting algorithm. -/

/-- Scan-based count of maximal runs of non-whitespace characters; the flag
records whether the previous character was inside a word. -/
def specWordCountGo : Bool → List Char → Nat
  | _, [] => 0
  | inWord, c :: cs =>
    if isPySpace c then specWordCountGo false cs
    else (if inWord then 0 else 1) + specWordCountGo true cs

/-- Number of maximal non-whitespace runs of a text. -/
def specWordCount (s : PStr) : Nat := specWordCountGo false s

theorem pySplitGo_length (s : List Char) :
    ∀ acc, (pySplitGo s acc).length =
      specWordCountGo (!acc.isEmpty) s + (if acc.isEmpty then 0 else 1) := by
  induction s with
  | nil => intro acc; cases acc <;> simp [pySplitGo, specWordCountGo]
  | cons c cs ih =>
    intro acc
    by_cases hc : isPySpace c
    · cases acc <;> simp [pySplitGo, specWordCountGo, hc, ih]
    · cases acc <;> (simp [pySplitGo, specWordCountGo, hc, ih]; try omega)

/-- The number of Python words is the number of maximal non-whitespace
runs. -/
theorem pySplit_length (s : PStr) : (pySplit s).length = specWordCount s := by
  have := pySplitGo_length s []
  simpa [pySplit, specWordCount] using this

/-- The 60-fold repetition of the word "lorem " from the C5 scenario. -/
def lorem60 : PStr := (List.replicate 60 "lorem ".toList).flatten

/-- The text "We use cookies " followed by 60 words from the C5 scenario. -/
def cookiePrefixText : PStr :=
  "We use cookies ".toList ++ (List.replicate 60 "word ".toList).flatten

/-- C5: the quality gate `is_valid_content` with the default `min_words=50`
accepts a text exactly when it has at least 50 words and its lowercasing
does not start with "we use cookies" or "cookie policy"; in particular 60
repetitions of the word "lorem " are valid, and "We use cookies " followed
by 60 words is invalid. -/
theorem C5_quality_gate :
    (∀ t : PStr, is_valid_content t = true ↔
      (50 ≤ specWordCount t ∧
        startsWithL "we use cookies".toList (lowerStr t) = false ∧
        startsWithL "cookie policy".toList (lowerStr t) = false)) ∧
    is_valid_content lorem60 = true ∧
    is_valid_content cookiePrefixText = false := by
  refine ⟨fun t => ?_, by decide, by decide⟩
  rw [is_valid_content, ← pySplit_length]
  simp

/-- C8: `extract_article` tries the readability primary path first; when
that path throws (`none`) or yields fewer than 50 words, the stripped text
of the whole page becomes the candidate instead; in every case the
candidate is passed through the Content Cleaner `clean_extracted_text`. -/
theorem C8_extractor_two_tier :
    ∀ (primaryText : Option PStr) (wholeText : PStr),
      (primaryText = none →
        extract_article primaryText wholeText =
          clean_extracted_text wholeText) ∧
      (∀ t, primaryText = some t → (pySplit t).length < 50 →
        extract_article primaryText wholeText =
          clean_extracted_text wholeText) ∧
      (∀ t, primaryText = some t → 50 ≤ (pySplit t).length →
        extract_article primaryText wholeText = clean_extracted_text t) := by
  intro primaryText wholeText
  refine ⟨?_, ?_, ?_⟩
  · intro h
    subst h
    simp [extract_article, pySplit, pySplitGo]
  · intro t ht hlt
    subst ht
    simp [extract_article, hlt]
  · intro t ht hge
    subst ht
    simp [extract_article, Nat.not_lt.mpr hge]

/-- Witness for C8 at concrete inputs. -/
theorem C8_extractor_two_tier_witness :
    extract_article none "hello world".toList =
      clean_extracted_text "hello world".toList ∧
    extract_article (some "few words".toList) "hello world".toList =
      clean_extracted_text "hello world".toList ∧
    extract_article (some lorem60) "ignored".toList =
      clean_extracted_text lorem60 :=
  ⟨(C8_extractor_two_tier none "hello world".toList).1 rfl,
   (C8_extractor_two_tier (some "few words".toList) "hello world".toList).2.1
     "few words".toList rfl (by decide),
   (C8_extractor_two_tier (some lorem60) "ignored".toList).2.2
     lorem60 rfl (by decide)⟩

/-- C10: the `/scrape` endpoint strips the `q` parameter before any use: a
missing, empty, or whitespace-only query yields the 400 bad-request outcome
(no cache key, no pipeline query), and queries differing only in leading or
trailing whitespace produce the identical decision, which for a nonempty
stripped query carries the cache key `results:` plus the stripped query and
the stripped query as pipeline input. -/
theorem C10_query_trimming :
    (scrape_query_decision none = ScrapeDecision.badRequest) ∧
    (∀ q : PStr, pyStrip q = [] →
      scrape_query_decision (some q) = ScrapeDecision.badRequest) ∧
    (∀ (q pre post : PStr), (∀ c ∈ pre, isPySpace c = true) →
      (∀ c ∈ post, isPySpace c = true) →
      scrape_query_decision (some (pre ++ q ++ post)) =
        scrape_query_decision (some q)) ∧
    (∀ q : PStr, pyStrip q ≠ [] →
      scrape_query_decision (some q) =
        ScrapeDecision.proceed ("results:".toList ++ pyStrip q) (pyStrip q)) := by
  refine ⟨rfl, ?_, ?_, ?_⟩
  · intro q h
    simp [scrape_query_decision, h]
  · intro q pre post hpre hpost
    simp only [scrape_query_decision, Option.getD_some]
    rw [pyStrip_sandwich hpre hpost]
  · intro q h
    simp [scrape_query_decision, h]

/-- Witness for C10 at concrete inputs. -/
theorem C10_query_trimming_witness :
    scrape_query_decision (some "   ".toList) = ScrapeDecision.badRequest ∧
    scrape_query_decision
        (some ("  ".toList ++ "hi".toList ++ " ".toList)) =
      scrape_query_decision (some "hi".toList) :=
  ⟨C10_query_trimming.2.1 "   ".toList (by decide),
   C10_query_trimming.2.2.1 "hi".toList "  ".toList " ".toList
     (by decide) (by decide)⟩

/-- C4: the fetch chain tries the strategies in the fixed order (plain
requests, cloudscraper, optionally requests_html), returns at the first
strategy whose fetched HTML extracts to valid content, and in the scenario
where strategy 1 yields invalid content and strategy 2 valid content the
result is strategy 2's extracted content with strategy 3 never invoked. -/
theorem C4_fallback_ordering :
    (∀ has : Bool, strategyList has =
      [Strategy.strategy_requests, Strategy.strategy_cloudscraper] ++
        (if has then [Strategy.strategy_requests_html] else [])) ∧
    (∀ (fetch : Strategy → Option PStr) (primary : PStr → Option PStr)
        (whole : PStr → PStr) (s : Strategy) (rest : List Strategy) (h : PStr),
      fetch s = some h →
      is_valid_content (extract_article (primary h) (whole h)) = true →
      tryScrapeGo fetch primary whole (s :: rest) =
        (extract_article (primary h) (whole h), [s])) ∧
    (∀ (fetch : Strategy → Option PStr) (primary : PStr → Option PStr)
        (whole : PStr → PStr) (h1 h2 : PStr) (has : Bool),
      fetch Strategy.strategy_requests = some h1 →
      is_valid_content (extract_article (primary h1) (whole h1)) = false →
      fetch Strategy.strategy_cloudscraper = some h2 →
      is_valid_content (extract_article (primary h2) (whole h2)) = true →
      try_scrape fetch primary whole has =
        (extract_article (primary h2) (whole h2),
          [Strategy.strategy_requests, Strategy.strategy_cloudscraper])) := by
  refine ⟨fun _ => rfl, ?_, ?_⟩
  · intro fetch primary whole s rest h hf hv
    simp [tryScrapeGo, hf, hv]
  · intro fetch primary whole h1 h2 has hf1 hv1 hf2 hv2
    rw [try_scrape]
    show tryScrapeGo fetch primary whole
      (Strategy.strategy_requests :: Strategy.strategy_cloudscraper :: _) = _
    rw [tryScrapeGo, hf1]
    simp only [hv1, if_false]
    rw [tryScrapeGo, hf2]
    simp [hv2]

/-- Fetch oracle for the C4 witness: strategy 1 yields a page whose article
is invalid, strategy 2 one whose article is the 60-word lorem text. -/
def exFetch : Strategy → Option PStr
  | Strategy.strategy_requests => some "short".toList
  | Strategy.strategy_cloudscraper => some lorem60
  | Strategy.strategy_requests_html => some "other".toList

/-- Witness for C4 at concrete oracles, with the rendered strategy
available. -/
theorem C4_fallback_ordering_witness :
    try_scrape exFetch some id true =
      (extract_article (some lorem60) (id lorem60),
        [Strategy.strategy_requests, Strategy.strategy_cloudscraper]) :=
  C4_fallback_ordering.2.2 exFetch some id "short".toList lorem60 true
    rfl (by decide) rfl (by decide)

/-! Fixtures for the orchestrator claims. -/

/-- The empty initial system state. -/
def emptyState : SysState := { db := [], markers := [], fetchLog := [] }

/-- A candidate search result for the URL "u". -/
def resU : SearchResultR :=
  { url := some "u".toList, title := some "T".toList,
    content := some "D".toList, engine := some "E".toList }

/-- A stored record for the URL "u". -/
def rowU : ScrapedResultR :=
  { query := "q0".toList, title := "T".toList, url := "u".toList,
    description := "D".toList, engine_name := "E".toList,
    searxng_json := resU, extracted_content := "Hello\nWorld".toList,
    embedding := "[]".toList }

/-- A state whose durable store already holds "u" and has no marker. -/
def rowUState : SysState := { db := [rowU], markers := [], fetchLog := [] }

/-- Counterexample for C1.  First part: one candidate "u", a scrape
yielding 60 valid words, a failing durable write — the record is dropped
but the 24h marker for "u" IS set (line 213 of the source), contradicting
"u is left without a marker (so u stays eligible for retry)".  Second part:
a store that already holds "u" with no marker — the skip decision writes no
marker, contradicting "it is also set defensively right after a skip
decision". -/
theorem C1_counterexample :
    ((search_and_scrape "q".toList [resU] (fun _ => lorem60)
        (fun _ => true) emptyState).db = [] ∧
      markerExists (search_and_scrape "q".toList [resU] (fun _ => lorem60)
        (fun _ => true) emptyState) "u".toList = true) ∧
    markerExists (search_and_scrape "q".toList [resU] (fun _ => lorem60)
      (fun _ => false) rowUState) "u".toList = false := by
  refine ⟨⟨?_, ?_⟩, ?_⟩ <;> decide

/-- C1 (amended): in the per-URL loop, the marker is set immediately after
a successful persist; a skip decision leaves the state entirely unchanged
(so no defensive marker is written); and when the durable write fails the
record is dropped and the loop continues with the remaining candidates, but
the 24h marker is still set, so the URL is not retried within the TTL
window. -/
theorem C1_marker_discipline :
    ∀ (query : PStr) (scrape : PStr → PStr) (dbFails : PStr → Bool)
      (existing : List PStr) (st : SysState) (result : SearchResultR)
      (url : PStr), result.url = some url →
      (((markerExists st url || existing.contains url) = true →
        processResult query scrape dbFails existing st result = st) ∧
      ((markerExists st url || existing.contains url) = false →
        hasSubstr "Failed".toList (scrape url) = false →
        markerExists (processResult query scrape dbFails existing st result)
            url = true ∧
          (dbFails url = true →
            (processResult query scrape dbFails existing st result).db =
              st.db)) ∧
      (∀ rest, searchLoop query scrape dbFails existing (result :: rest) st =
        searchLoop query scrape dbFails existing rest
          (processResult query scrape dbFails existing st result))) := by
  intro query scrape dbFails existing st result url hurl
  refine ⟨?_, ?_, fun rest => rfl⟩
  · intro hskip
    simp only [processResult, hurl]
    rw [if_pos hskip]
  · intro hskip hfail
    simp only [processResult, hurl]
    rw [if_neg (fun hc => by rw [hskip] at hc; cases hc),
      if_neg (fun hc => by rw [hfail] at hc; cases hc)]
    constructor
    · simp [markerExists]
    · intro hdb
      simp [persist_result, hdb]

/-- Witness for C1 (amended) at concrete inputs: the persist for "u" fails
yet the marker is set. -/
theorem C1_marker_discipline_witness :
    markerExists (processResult "q".toList (fun _ => lorem60)
      (fun _ => true) [] emptyState resU) "u".toList = true :=
  ((C1_marker_discipline "q".toList (fun _ => lorem60) (fun _ => true) []
    emptyState resU "u".toList rfl).2.1 (by decide) (by decide)).1

/-- A valid 60-word text containing the word "Failed": the word "Failed"
repeated 60 times, single blanks in between. -/
def failedValid : PStr :=
  "Failed".toList ++ (List.replicate 59 " Failed".toList).flatten

theorem tryScrapeGo_failed_iff (fetch : Strategy → Option PStr)
    (primary : PStr → Option PStr) (whole : PStr → PStr) (L : List Strategy) :
    ((tryScrapeGo fetch primary whole L).1 = failedMessage ↔
      ∀ s ∈ L, ∀ h, fetch s = some h →
        is_valid_content (extract_article (primary h) (whole h)) = false) := by
  induction L with
  | nil => simp [tryScrapeGo]
  | cons s rest ih =>
    cases hf : fetch s with
    | none =>
      have hL : (tryScrapeGo fetch primary whole (s :: rest)).1 =
          (tryScrapeGo fetch primary whole rest).1 := by
        simp [tryScrapeGo, hf]
      rw [hL, ih, List.forall_mem_cons]
      constructor
      · intro h
        refine ⟨fun x hx => ?_, h⟩
        rw [hf] at hx
        cases hx
      · exact fun h => h.2
    | some html =>
      by_cases hv :
          is_valid_content (extract_article (primary html) (whole html)) = true
      · have hL : (tryScrapeGo fetch primary whole (s :: rest)).1 =
            extract_article (primary html) (whole html) := by
          simp [tryScrapeGo, hf, hv]
        rw [hL, List.forall_mem_cons]
        constructor
        · intro h
          exfalso
          rw [h] at hv
          exact absurd hv (by decide)
        · intro h
          exfalso
          have hc := h.1 html hf
          rw [hv] at hc
          cases hc
      · rw [Bool.not_eq_true] at hv
        have hL : (tryScrapeGo fetch primary whole (s :: rest)).1 =
            (tryScrapeGo fetch primary whole rest).1 := by
          simp [tryScrapeGo, hf, hv]
        rw [hL, ih, List.forall_mem_cons]
        constructor
        · intro h
          refine ⟨fun x hx => ?_, h⟩
          rw [hf] at hx
          rw [← Option.some.inj hx]
          exact hv
        · exact fun h => h.2

/-- Evidence for C2.  The chain does report the sentinel exactly when all
strategies exhaust without valid content.  But the persist condition in the
loop is the substring test `"Failed" not in content`, so the valid 60-word
text `failedValid`, which the chain returns as genuine content, is dropped:
the final state has no record and no marker for its URL, only the fetch-log
entry. -/
theorem C2_failure_reporting :
    (∀ (fetch : Strategy → Option PStr) (primary : PStr → Option PStr)
        (whole : PStr → PStr) (has : Bool),
      ((try_scrape fetch primary whole has).1 = failedMessage ↔
        ∀ s ∈ strategyList has, ∀ h, fetch s = some h →
          is_valid_content (extract_article (primary h) (whole h)) = false)) ∧
    is_valid_content failedValid = true ∧
    (try_scrape (fun _ => some []) (fun _ => some failedValid)
      (fun _ => []) false).1 = failedValid ∧
    search_and_scrape "q".toList [resU] (fun _ => failedValid)
        (fun _ => false) emptyState =
      { db := [], markers := [], fetchLog := ["u".toList] } := by
  refine ⟨fun fetch primary whole has =>
    tryScrapeGo_failed_iff fetch primary whole (strategyList has),
    by decide, by decide, by decide⟩

/-! Machinery for C3: repeated pipeline runs. -/

/-- Inputs of one pipeline run: the query, the candidate list the
aggregator returned, and the scrape/database-failure oracles. -/
structure RunInput where
  query : PStr
  results : List SearchResultR
  scrape : PStr → PStr
  dbFails : PStr → Bool

/-- Sequential composition of pipeline runs. -/
def applyRuns : List RunInput → SysState → SysState
  | [], st => st
  | r :: rs, st =>
    applyRuns rs (search_and_scrape r.query r.results r.scrape r.dbFails st)

/-- The URLs stored in the durable store. -/
def dbUrls (st : SysState) : List PStr := st.db.map (fun r => r.url)

/-- Exhaustive shape analysis of one iteration of the per-URL loop. -/
theorem processResult_shape (q : PStr) (sc : PStr → PStr) (f : PStr → Bool)
    (E : List PStr) (st : SysState) (res : SearchResultR) :
    processResult q sc f E st res = st ∨
    (∃ url, res.url = some url ∧
      processResult q sc f E st res =
        { st with fetchLog := st.fetchLog ++ [url] }) ∨
    (∃ url row, res.url = some url ∧ row.url = url ∧
      st.db.any (fun r => r.url = url) = false ∧
      processResult q sc f E st res =
        { db := st.db ++ [row],
          markers := (url, 86400) :: (url, 86400) :: st.markers,
          fetchLog := st.fetchLog ++ [url] }) ∨
    (∃ url, res.url = some url ∧
      processResult q sc f E st res =
        { db := st.db, markers := (url, 86400) :: st.markers,
          fetchLog := st.fetchLog ++ [url] }) := by
  rcases hres : res.url with _ | url
  · left
    simp [processResult, hres]
  · by_cases hskip : (markerExists st url || E.contains url) = true
    · left
      simp only [processResult, hres]
      rw [if_pos hskip]
    · rw [Bool.not_eq_true] at hskip
      by_cases hfail : hasSubstr "Failed".toList (sc url) = true
      · right; left
        refine ⟨url, rfl, ?_⟩
        simp only [processResult, hres]
        rw [if_neg (fun hc => by rw [hskip] at hc; cases hc), if_pos hfail]
      · rw [Bool.not_eq_true] at hfail
        by_cases hp : (f url ||
            st.db.any (fun r => r.url = url)) = true
        · right; right; right
          refine ⟨url, rfl, ?_⟩
          simp only [processResult, hres]
          rw [if_neg (fun hc => by rw [hskip] at hc; cases hc),
            if_neg (fun hc => by rw [hfail] at hc; cases hc)]
          simp only [persist_result, hres, Option.getD_some]
          rw [if_pos hp]
        · rw [Bool.not_eq_true, Bool.or_eq_false_iff] at hp
          right; right; left
          refine ⟨url,
            { query := q
              title := (res.title.getD "No Title".toList).take 500
              url := url
              description :=
                (res.content.getD "No Description".toList).take 1000
              engine_name := res.engine.getD "Unknown".toList
              searxng_json := res
              extracted_content := (sc url).take 10000
              embedding := compute_embedding (sc url) }, rfl, rfl, hp.2, ?_⟩
          simp only [processResult, hres]
          rw [if_neg (fun hc => by rw [hskip] at hc; cases hc),
            if_neg (fun hc => by rw [hfail] at hc; cases hc)]
          simp only [persist_result, hres, Option.getD_some]
          rw [if_neg (fun hc => by simp [hp.1, hp.2] at hc)]

theorem not_mem_dbUrls_of_any_false {st : SysState} {url : PStr}
    (h : st.db.any (fun r => r.url = url) = false) : url ∉ dbUrls st := by
  intro hmem
  rw [dbUrls, List.mem_map] at hmem
  obtain ⟨r, hr, hru⟩ := hmem
  rw [List.any_eq_false] at h
  have := h r hr
  simp [hru] at this

/-- Effect of one loop iteration on the stored URL list. -/
theorem processResult_dbUrls (q : PStr) (sc : PStr → PStr) (f : PStr → Bool)
    (E : List PStr) (st : SysState) (res : SearchResultR) :
    dbUrls (processResult q sc f E st res) = dbUrls st ∨
    ∃ url, url ∉ dbUrls st ∧
      dbUrls (processResult q sc f E st res) = dbUrls st ++ [url] := by
  rcases processResult_shape q sc f E st res with h | ⟨url, _, h⟩ |
    ⟨url, row, _, hrow, hany, h⟩ | ⟨url, _, h⟩
  · left; rw [h]
  · left; rw [h]; rfl
  · right
    exact ⟨url, not_mem_dbUrls_of_any_false hany,
      by rw [h]; simp [dbUrls, hrow]⟩
  · left; rw [h]; rfl

theorem processResult_nodup {q : PStr} {sc : PStr → PStr} {f : PStr → Bool}
    {E : List PStr} {st : SysState} {res : SearchResultR}
    (h : (dbUrls st).Nodup) :
    (dbUrls (processResult q sc f E st res)).Nodup := by
  rcases processResult_dbUrls q sc f E st res with hd | ⟨url, hu, hd⟩
  · rw [hd]; exact h
  · rw [hd]
    simp [List.nodup_append, h, hu]

theorem processResult_marker_mono {q : PStr} {sc : PStr → PStr}
    {f : PStr → Bool} {E : List PStr} {st : SysState} {res : SearchResultR}
    {u : PStr} (h : markerExists st u = true) :
    markerExists (processResult q sc f E st res) u = true := by
  rcases processResult_shape q sc f E st res with hs | ⟨url, _, hs⟩ |
    ⟨url, row, _, _, _, hs⟩ | ⟨url, _, hs⟩ <;> rw [hs] <;>
    simp_all [markerExists]

theorem processResult_dbUrls_mono {q : PStr} {sc : PStr → PStr}
    {f : PStr → Bool} {E : List PStr} {st : SysState} {res : SearchResultR}
    {u : PStr} (h : u ∈ dbUrls st) :
    u ∈ dbUrls (processResult q sc f E st res) := by
  rcases processResult_dbUrls q sc f E st res with hd | ⟨url, _, hd⟩ <;>
    rw [hd] <;> simp [h]

theorem processResult_fetchLog (q : PStr) (sc : PStr → PStr) (f : PStr → Bool)
    (E : List PStr) (st : SysState) (res : SearchResultR) :
    (processResult q sc f E st res).fetchLog = st.fetchLog ∨
    ∃ url, res.url = some url ∧
      (processResult q sc f E st res).fetchLog = st.fetchLog ++ [url] := by
  rcases processResult_shape q sc f E st res with hs | ⟨url, hu, hs⟩ |
    ⟨url, row, hu, _, _, hs⟩ | ⟨url, hu, hs⟩
  · left; rw [hs]
  · right; exact ⟨url, hu, by rw [hs]⟩
  · right; exact ⟨url, hu, by rw [hs]⟩
  · right; exact ⟨url, hu, by rw [hs]⟩

/-- A URL whose marker or whose skip-list entry is present is skipped with
the state unchanged. -/
theorem processResult_skip {q : PStr} {sc : PStr → PStr} {f : PStr → Bool}
    {E : List PStr} {st : SysState} {res : SearchResultR} {u : PStr}
    (hres : res.url = some u)
    (hcond : (markerExists st u || E.contains u) = true) :
    processResult q sc f E st res = st := by
  simp only [processResult, hres]
  rw [if_pos hcond]

theorem searchLoop_nodup (q : PStr) (sc : PStr → PStr) (f : PStr → Bool)
    (E : List PStr) :
    ∀ (results : List SearchResultR) (st : SysState), (dbUrls st).Nodup →
      (dbUrls (searchLoop q sc f E results st)).Nodup := by
  intro results
  induction results with
  | nil => exact fun st h => h
  | cons res rest ih =>
    intro st h
    exact ih _ (processResult_nodup h)

theorem searchLoop_marker_mono (q : PStr) (sc : PStr → PStr) (f : PStr → Bool)
    (E : List PStr) :
    ∀ (results : List SearchResultR) (st : SysState) (u : PStr),
      markerExists st u = true →
      markerExists (searchLoop q sc f E results st) u = true := by
  intro results
  induction results with
  | nil => exact fun st u h => h
  | cons res rest ih =>
    intro st u h
    exact ih _ u (processResult_marker_mono h)

theorem searchLoop_dbUrls_mono (q : PStr) (sc : PStr → PStr) (f : PStr → Bool)
    (E : List PStr) :
    ∀ (results : List SearchResultR) (st : SysState) (u : PStr),
      u ∈ dbUrls st → u ∈ dbUrls (searchLoop q sc f E results st) := by
  intro results
  induction results with
  | nil => exact fun st u h => h
  | cons res rest ih =>
    intro st u h
    exact ih _ u (processResult_dbUrls_mono h)

/-- Within one loop, a URL covered by the skip list, by a marker, or absent
from the candidates is never fetched. -/
theorem searchLoop_no_fetch (q : PStr) (sc : PStr → PStr) (f : PStr → Bool)
    (E : List PStr) :
    ∀ (results : List SearchResultR) (st : SysState) (u : PStr),
      (E.contains u = true ∨ markerExists st u = true ∨
        ∀ r ∈ results, r.url ≠ some u) →
      u ∉ st.fetchLog →
      u ∉ (searchLoop q sc f E results st).fetchLog := by
  intro results
  induction results with
  | nil => exact fun st u _ h => h
  | cons res rest ih =>
    intro st u hcond hlog
    by_cases hu : res.url = some u
    · have hskip : processResult q sc f E st res = st := by
        rcases hcond with hE | hM | hAll
        · exact processResult_skip hu (by rw [hE, Bool.or_true])
        · exact processResult_skip hu (by rw [hM, Bool.true_or])
        · exact absurd hu (hAll res (List.mem_cons_self res rest))
      show u ∉ (searchLoop q sc f E (res :: rest) st).fetchLog
      rw [searchLoop, hskip]
      refine ih st u ?_ hlog
      rcases hcond with hE | hM | hAll
      · exact Or.inl hE
      · exact Or.inr (Or.inl hM)
      · exact Or.inr (Or.inr (fun r hr => hAll r (List.mem_cons_of_mem _ hr)))
    · show u ∉ (searchLoop q sc f E (res :: rest) st).fetchLog
      rw [searchLoop]
      refine ih _ u ?_ ?_
      · rcases hcond with hE | hM | hAll
        · exact Or.inl hE
        · exact Or.inr (Or.inl (processResult_marker_mono hM))
        · exact Or.inr (Or.inr (fun r hr => hAll r (List.mem_cons_of_mem _ hr)))
      · rcases processResult_fetchLog q sc f E st res with hd | ⟨url, hurl, hd⟩
        · rw [hd]; exact hlog
        · rw [hd]
          intro hmem
          rcases List.mem_append.mp hmem with h1 | h1
          · exact hlog h1
          · rw [List.mem_singleton] at h1
            exact hu (h1 ▸ hurl)

theorem search_and_scrape_nodup {q : PStr} {results : List SearchResultR}
    {sc : PStr → PStr} {f : PStr → Bool} {st : SysState}
    (h : (dbUrls st).Nodup) :
    (dbUrls (search_and_scrape q results sc f st)).Nodup :=
  searchLoop_nodup q sc f _ results st h

theorem search_and_scrape_marker_mono {q : PStr}
    {results : List SearchResultR} {sc : PStr → PStr} {f : PStr → Bool}
    {st : SysState} {u : PStr} (h : markerExists st u = true) :
    markerExists (search_and_scrape q results sc f st) u = true :=
  searchLoop_marker_mono q sc f _ results st u h

theorem search_and_scrape_dbUrls_mono {q : PStr}
    {results : List SearchResultR} {sc : PStr → PStr} {f : PStr → Bool}
    {st : SysState} {u : PStr} (h : u ∈ dbUrls st) :
    u ∈ dbUrls (search_and_scrape q results sc f st) :=
  searchLoop_dbUrls_mono q sc f _ results st u h

/-- A URL that already has a durable record or a marker when a run starts
is never fetched during that run. -/
theorem search_and_scrape_no_fetch {q : PStr} {results : List SearchResultR}
    {sc : PStr → PStr} {f : PStr → Bool} {st : SysState} {u : PStr}
    (hcond : u ∈ dbUrls st ∨ markerExists st u = true)
    (hlog : u ∉ st.fetchLog) :
    u ∉ (search_and_scrape q results sc f st).fetchLog := by
  rw [search_and_scrape]
  apply searchLoop_no_fetch _ _ _ _ _ _ _ ?_ hlog
  rcases hcond with hdb | hm
  · by_cases hc : ∀ r ∈ results, r.url ≠ some u
    · exact Or.inr (Or.inr hc)
    · left
      push_neg at hc
      obtain ⟨r, hr, hru⟩ := hc
      have hmem : u ∈ get_existing_urls st.db
          (results.filterMap (fun r => r.url)) := by
        rw [get_existing_urls, List.mem_filter]
        constructor
        · exact List.mem_filterMap.mpr ⟨r, hr, hru⟩
        · rw [List.any_eq_true]
          rw [dbUrls, List.mem_map] at hdb
          obtain ⟨row, hrow, hrowu⟩ := hdb
          exact ⟨row, hrow, by simp [hrowu]⟩
      rw [List.contains_iff_exists_mem_beq]
      exact ⟨u, hmem, by simp⟩
  · exact Or.inr (Or.inl hm)

theorem applyRuns_marker_mono :
    ∀ (runs : List RunInput) (st : SysState) (u : PStr),
      markerExists st u = true → markerExists (applyRuns runs st) u = true := by
  intro runs
  induction runs with
  | nil => exact fun st u h => h
  | cons r rs ih =>
    intro st u h
    exact ih _ u (search_and_scrape_marker_mono h)

theorem applyRuns_dbUrls_mono :
    ∀ (runs : List RunInput) (st : SysState) (u : PStr),
      u ∈ dbUrls st → u ∈ dbUrls (applyRuns runs st) := by
  intro runs
  induction runs with
  | nil => exact fun st u h => h
  | cons r rs ih =>
    intro st u h
    exact ih _ u (search_and_scrape_dbUrls_mono h)

theorem applyRuns_nodup :
    ∀ (runs : List RunInput) (st : SysState), (dbUrls st).Nodup →
      (dbUrls (applyRuns runs st)).Nodup := by
  intro runs
  induction runs with
  | nil => exact fun st h => h
  | cons r rs ih =>
    intro st h
    exact ih _ (search_and_scrape_nodup h)

theorem applyRuns_no_fetch :
    ∀ (runs : List RunInput) (st : SysState) (u : PStr),
      (u ∈ dbUrls st ∨ markerExists st u = true) → u ∉ st.fetchLog →
      u ∉ (applyRuns runs st).fetchLog := by
  intro runs
  induction runs with
  | nil => exact fun st u _ h => h
  | cons r rs ih =>
    intro st u hcond hlog
    refine ih _ u ?_ (search_and_scrape_no_fetch hcond hlog)
    rcases hcond with hdb | hm
    · exact Or.inl (search_and_scrape_dbUrls_mono hdb)
    · exact Or.inr (search_and_scrape_marker_mono hm)

theorem countP_le_one_of_nodup_urls {db : List ScrapedResultR} {u : PStr}
    (h : (db.map (fun r => r.url)).Nodup) :
    db.countP (fun r => decide (r.url = u)) ≤ 1 := by
  induction db with
  | nil => simp
  | cons r rest ih =>
    rw [List.map_cons, List.nodup_cons] at h
    rw [List.countP_cons]
    by_cases hr : r.url = u
    · have h0 : rest.countP (fun r => decide (r.url = u)) = 0 := by
        rw [List.countP_eq_zero]
        intro a ha
        simp only [decide_eq_true_eq]
        intro hau
        exact h.1 (by rw [hr, ← hau]; exact List.mem_map_of_mem _ ha)
      simp [hr, h0]
    · simp [hr]
      exact ih h.2

/-- C3: url-uniqueness of the durable store is an invariant of the
pipeline: starting from a store with pairwise distinct URLs, any number of
sequential runs leaves pairwise distinct URLs — hence at most one record
per URL — and a URL that already has a durable record or a marker is never
fetched by any of those runs. -/
theorem C3_dedup_idempotence :
    ∀ (runs : List RunInput) (st : SysState) (u : PStr),
      (dbUrls st).Nodup →
      ((dbUrls (applyRuns runs st)).Nodup ∧
        (applyRuns runs st).db.countP (fun r => decide (r.url = u)) ≤ 1 ∧
        ((u ∈ dbUrls st ∨ markerExists st u = true) → u ∉ st.fetchLog →
          u ∉ (applyRuns runs st).fetchLog)) := by
  intro runs st u h
  have hnd := applyRuns_nodup runs st h
  exact ⟨hnd, countP_le_one_of_nodup_urls hnd, applyRuns_no_fetch runs st u⟩

/-- One concrete run processing the candidate "u" with a successful scrape
and a healthy database. -/
def runU : RunInput :=
  { query := "q".toList, results := [resU], scrape := fun _ => lorem60,
    dbFails := fun _ => false }

/-- Witness for C3: running the same candidate twice from the empty state
stores "u" at most once. -/
theorem C3_dedup_idempotence_witness :
    (dbUrls emptyState).Nodup ∧
    (applyRuns [runU, runU] emptyState).db.countP
      (fun r => decide (r.url = "u".toList)) ≤ 1 :=
  ⟨by simp [dbUrls, emptyState],
    (C3_dedup_idempotence [runU, runU] emptyState "u".toList
      (by simp [dbUrls, emptyState])).2.1⟩

/-! Lemmas about substring search and SQL LIKE matching, for C7. -/

theorem startsWithL_iff (p s : List Char) :
    startsWithL p s = true ↔ ∃ s', s = p ++ s' := by
  induction p generalizing s with
  | nil => simp [startsWithL]
  | cons c p ih =>
    cases s with
    | nil => simp [startsWithL]
    | cons d s' =>
      rw [startsWithL, Bool.and_eq_true]
      simp only [decide_eq_true_eq, ih, List.cons_append, List.cons.injEq]
      constructor
      · rintro ⟨rfl, t, rfl⟩
        exact ⟨t, rfl, rfl⟩
      · rintro ⟨t, rfl, rfl⟩
        exact ⟨rfl, t, rfl⟩

theorem hasSubstr_iff_drop (p s : List Char) :
    hasSubstr p s = true ↔ ∃ n, startsWithL p (s.drop n) = true := by
  induction s with
  | nil =>
    rw [hasSubstr]
    constructor
    · exact fun h => ⟨0, h⟩
    · rintro ⟨n, hn⟩
      simpa using hn
  | cons d s' ih =>
    rw [hasSubstr, Bool.or_eq_true, ih]
    constructor
    · rintro (h | ⟨n, hn⟩)
      · exact ⟨0, h⟩
      · exact ⟨n + 1, hn⟩
    · rintro ⟨n, hn⟩
      cases n with
      | zero => exact Or.inl hn
      | succ n => exact Or.inr ⟨n, hn⟩

theorem likeSuffix_iff (f : List Char → Bool) (s : List Char) :
    likeSuffix f s = true ↔ ∃ n, f (s.drop n) = true := by
  induction s with
  | nil =>
    rw [likeSuffix]
    constructor
    · exact fun h => ⟨0, h⟩
    · rintro ⟨n, hn⟩
      simpa using hn
  | cons d s' ih =>
    rw [likeSuffix, Bool.or_eq_true, ih]
    constructor
    · rintro (h | ⟨n, hn⟩)
      · exact ⟨0, h⟩
      · exact ⟨n + 1, hn⟩
    · rintro ⟨n, hn⟩
      cases n with
      | zero => exact Or.inl hn
      | succ n => exact Or.inr ⟨n, hn⟩

theorem likeMatch_percent_all (s : List Char) : likeMatch ['%'] s = true := by
  have h : likeMatch ['%'] s = likeSuffix (likeMatch []) s := by
    simp [likeMatch]
  rw [h, likeSuffix_iff]
  exact ⟨s.length, by simp [likeMatch]⟩

/-- The three LIKE metacharacters. -/
def isLikeSpecial (c : Char) : Bool := c = '%' || c = '_' || c = '\\'

theorem likeMatch_literal_nil {c : Char} (h : isLikeSpecial c = false)
    (p : List Char) : likeMatch (c :: p) [] = false := by
  simp only [isLikeSpecial, Bool.or_eq_false_iff, decide_eq_false_iff_not] at h
  rw [likeMatch.eq_def]
  split <;> simp_all

theorem likeMatch_literal_cons {c : Char} (h : isLikeSpecial c = false)
    (p : List Char) (d : Char) (s : List Char) :
    likeMatch (c :: p) (d :: s) = (decide (c = d) && likeMatch p s) := by
  simp only [isLikeSpecial, Bool.or_eq_false_iff, decide_eq_false_iff_not] at h
  rw [likeMatch.eq_def]
  split <;> simp_all

/-- Matching a wildcard-free pattern segment consumes it literally. -/
theorem likeMatch_append_literal {p : List Char}
    (hp : ∀ c ∈ p, isLikeSpecial c = false) (q s : List Char) :
    likeMatch (p ++ q) s = true ↔
      ∃ s', s = p ++ s' ∧ likeMatch q s' = true := by
  induction p generalizing s with
  | nil => simp
  | cons c p ih =>
    have hc := hp c (by simp)
    have hp' : ∀ e ∈ p, isLikeSpecial e = false :=
      fun e he => hp e (by simp [he])
    cases s with
    | nil =>
      rw [List.cons_append, likeMatch_literal_nil hc]
      simp
    | cons d s' =>
      rw [List.cons_append, likeMatch_literal_cons hc, Bool.and_eq_true]
      simp only [decide_eq_true_eq, ih hp', List.cons_append, List.cons.injEq]
      constructor
      · rintro ⟨rfl, t, rfl, hm⟩
        exact ⟨t, ⟨rfl, rfl⟩, hm⟩
      · rintro ⟨t, ⟨rfl, rfl⟩, hm⟩
        exact ⟨rfl, t, rfl, hm⟩

theorem isLikeSpecial_toLower (c : Char) :
    isLikeSpecial (Char.toLower c) = isLikeSpecial c := by
  have hl := toLower_toNat c
  have h37 : ('%' : Char).toNat = 37 := rfl
  have h95 : ('_' : Char).toNat = 95 := rfl
  have h92 : ('\\' : Char).toNat = 92 := rfl
  by_cases h : 65 ≤ c.toNat ∧ c.toNat ≤ 90
  · rw [if_pos h] at hl
    have hlow : isLikeSpecial (Char.toLower c) = false := by
      simp only [isLikeSpecial, Bool.or_eq_false_iff, decide_eq_false_iff_not,
        char_eq_iff_toNat, hl, h37, h95, h92]
      omega
    have hc : isLikeSpecial c = false := by
      simp only [isLikeSpecial, Bool.or_eq_false_iff, decide_eq_false_iff_not,
        char_eq_iff_toNat, h37, h95, h92]
      omega
    rw [hlow, hc]
  · rw [if_neg h] at hl
    simp only [isLikeSpecial, char_eq_iff_toNat, hl]

/-- For a query free of LIKE metacharacters, the ILIKE `%query%` filter is
exactly the case-insensitive substring test. -/
theorem ilikeContains_eq_hasSubstr {query field : PStr}
    (hq : ∀ c ∈ query, isLikeSpecial c = false) :
    ilikeContains query field = hasSubstr (lowerStr query) (lowerStr field) := by
  have hpat : lowerStr ('%' :: (query ++ ['%'])) =
      '%' :: (lowerStr query ++ ['%']) := by
    simp [lowerStr]
  have hP : ∀ c ∈ lowerStr query, isLikeSpecial c = false := by
    intro c hc
    rw [lowerStr, List.mem_map] at hc
    obtain ⟨e, he, rfl⟩ := hc
    rw [isLikeSpecial_toLower]
    exact hq e he
  rw [ilikeContains, hpat, Bool.eq_iff_iff]
  have hunfold : likeMatch ('%' :: (lowerStr query ++ ['%'])) (lowerStr field) =
      likeSuffix (likeMatch (lowerStr query ++ ['%'])) (lowerStr field) := by
    simp [likeMatch]
  rw [hunfold, likeSuffix_iff, hasSubstr_iff_drop]
  constructor
  · rintro ⟨n, hn⟩
    rw [likeMatch_append_literal hP] at hn
    obtain ⟨s', hs', _⟩ := hn
    exact ⟨n, (startsWithL_iff _ _).mpr ⟨s', hs'⟩⟩
  · rintro ⟨n, hn⟩
    obtain ⟨s', hs'⟩ := (startsWithL_iff _ _).mp hn
    exact ⟨n, (likeMatch_append_literal hP _ _).mpr
      ⟨s', hs', likeMatch_percent_all s'⟩⟩

theorem mem_compressLines {results : List ScrapedResultR} {l : PStr} :
    l ∈ compressLines results ↔
      ∃ r ∈ results, l ∈ pySplitlines r.extracted_content := by
  rw [compressLines, List.mem_dedup, List.mem_flatten]
  constructor
  · rintro ⟨L, hL, hl⟩
    rw [List.mem_map] at hL
    obtain ⟨r, hr, rfl⟩ := hL
    exact ⟨r, hr, hl⟩
  · rintro ⟨r, hr, hl⟩
    exact ⟨pySplitlines r.extracted_content, List.mem_map_of_mem _ hr, hl⟩

/-- Record A of the compression-dedup scenario. -/
def rowA : ScrapedResultR :=
  { query := "capitals".toList, title := "A".toList, url := "a".toList,
    description := "da".toList, engine_name := "E".toList,
    searxng_json := resU, extracted_content := "Hello\nWorld".toList,
    embedding := "[]".toList }

/-- Record B of the compression-dedup scenario. -/
def rowB : ScrapedResultR :=
  { query := "capitals".toList, title := "B".toList, url := "b".toList,
    description := "db".toList, engine_name := "E".toList,
    searxng_json := resU, extracted_content := "World\nFoo".toList,
    embedding := "[]".toList }

/-- C7 (amended): the `/scrape` aggregation joins, with `\n`, the
deduplicated union of the extracted-content lines of the records whose
query field matches the SQL ILIKE pattern `%query%`; each distinct line
appears exactly once in that line list; the ILIKE filter coincides with
case-insensitive substring matching exactly for queries free of the LIKE
metacharacters; and the record pair with lines Hello/World and World/Foo
compresses to the three lines Hello, World, Foo once each. -/
theorem C7_compressed_answer :
    (∀ (db : List ScrapedResultR) (query : PStr),
      (compressLines (db.filter (fun r => ilikeContains query r.query))).Nodup ∧
      (∀ l : PStr,
        l ∈ compressLines (db.filter (fun r => ilikeContains query r.query)) ↔
          ∃ r ∈ db, ilikeContains query r.query = true ∧
            l ∈ pySplitlines r.extracted_content) ∧
      scrape_query_blob db query =
        joinNL (compressLines
          (db.filter (fun r => ilikeContains query r.query)))) ∧
    (∀ (query field : PStr), (∀ c ∈ query, isLikeSpecial c = false) →
      ilikeContains query field =
        hasSubstr (lowerStr query) (lowerStr field)) ∧
    ((compressLines [rowA, rowB]).count "Hello".toList = 1 ∧
      (compressLines [rowA, rowB]).count "World".toList = 1 ∧
      (compressLines [rowA, rowB]).count "Foo".toList = 1 ∧
      (compressLines [rowA, rowB]).length = 3) := by
  refine ⟨fun db query => ⟨List.nodup_dedup _, fun l => ?_, rfl⟩,
    fun query field hq => ilikeContains_eq_hasSubstr hq,
    by decide, by decide, by decide, by decide⟩
  rw [mem_compressLines]
  constructor
  · rintro ⟨r, hr, hl⟩
    rw [List.mem_filter] at hr
    exact ⟨r, hr.1, hr.2, hl⟩
  · rintro ⟨r, hr, hil, hl⟩
    exact ⟨r, List.mem_filter.mpr ⟨hr, hil⟩, hl⟩

/-- Witness for C7 at a concrete wildcard-free query. -/
theorem C7_compressed_answer_witness :
    ilikeContains "hello".toList "Say Hello World".toList =
      hasSubstr (lowerStr "hello".toList)
        (lowerStr "Say Hello World".toList) :=
  C7_compressed_answer.2.1 "hello".toList "Say Hello World".toList (by decide)

/-- The stored record of the C7 counterexample: its query field is "abc". -/
def rowABC : ScrapedResultR :=
  { query := "abc".toList, title := "A".toList, url := "a".toList,
    description := "da".toList, engine_name := "E".toList,
    searxng_json := resU, extracted_content := "X".toList,
    embedding := "[]".toList }

/-- Aggregation following the claim's words: case-insensitive substring
match of the query against the record's query field. -/
def substrMatchBlob (db : List ScrapedResultR) (query : PStr) : PStr :=
  compress_results
    (db.filter (fun r => hasSubstr (lowerStr query) (lowerStr r.query)))

/-- Counterexample for C7: for the query `a_c` and a stored record with
query field `abc`, the code's ILIKE filter matches (the `_` wildcard
matches `b`), so the blob is "X", while the claim's case-insensitive
substring matching matches nothing, giving the empty blob. -/
theorem C7_counterexample :
    scrape_query_blob [rowABC] "a_c".toList = "X".toList ∧
    substrMatchBlob [rowABC] "a_c".toList = [] ∧
    hasSubstr (lowerStr "a_c".toList) (lowerStr "abc".toList) = false ∧
    ilikeContains "a_c".toList "abc".toList = true := by
  refine ⟨by decide, by decide, by decide, by decide⟩

/-! Lemma battery for the Content Cleaner claims C6 and C9. -/

theorem pySplitlinesGo_crlf (cs acc : List Char) :
    pySplitlinesGo ('\r' :: '\n' :: cs) acc =
      acc.reverse :: pySplitlinesGo cs [] := by
  simp [pySplitlinesGo]

theorem pySplitlinesGo_not_boundary {c : Char} (h : isLineBoundary c = false)
    (cs acc : List Char) :
    pySplitlinesGo (c :: cs) acc = pySplitlinesGo cs (c :: acc) := by
  have hcr : c ≠ '\r' := by
    intro he
    rw [he] at h
    exact absurd h (by decide)
  rw [pySplitlinesGo.eq_def]
  split <;> simp_all

theorem pySplitlinesGo_step_boundary {c : Char} {cs : List Char}
    (hno : ∀ cs1, c = '\r' → cs = '\n' :: cs1 → False)
    (hb : isLineBoundary c = true) (acc : List Char) :
    pySplitlinesGo (c :: cs) acc = acc.reverse :: pySplitlinesGo cs [] := by
  rw [pySplitlinesGo.eq_def]
  split <;> simp_all


theorem pySplitlinesGo_bf (s acc : List Char) :
    (∀ c ∈ acc, isLineBoundary c = false) →
    ∀ l ∈ pySplitlinesGo s acc, ∀ c ∈ l, isLineBoundary c = false := by
  induction s, acc using pySplitlinesGo.induct with
  | case1 acc hacc =>
    intro h l hl
    rw [pySplitlinesGo, if_pos hacc] at hl
    cases hl
  | case2 acc hacc =>
    intro h l hl
    rw [pySplitlinesGo, if_neg hacc] at hl
    rw [List.mem_singleton] at hl
    subst hl
    intro c hc
    exact h c (List.mem_reverse.mp hc)
  | case3 cs acc ih =>
    intro h l hl
    rw [pySplitlinesGo_crlf] at hl
    rcases List.mem_cons.mp hl with rfl | hl2
    · exact fun c hc => h c (List.mem_reverse.mp hc)
    · exact ih (by simp) l hl2
  | case4 c cs acc hno hb ih =>
    intro h l hl
    rw [pySplitlinesGo_step_boundary hno hb] at hl
    rcases List.mem_cons.mp hl with rfl | hl2
    · exact fun d hd => h d (List.mem_reverse.mp hd)
    · exact ih (by simp) l hl2
  | case5 c cs acc hno hnb ih =>
    intro h l hl
    rw [Bool.not_eq_true] at hnb
    rw [pySplitlinesGo_not_boundary hnb] at hl
    refine ih ?_ l hl
    intro d hd
    rcases List.mem_cons.mp hd with rfl | hd2
    · exact hnb
    · exact h d hd2

theorem pySplitlines_bf (s : PStr) :
    ∀ l ∈ pySplitlines s, ∀ c ∈ l, isLineBoundary c = false :=
  pySplitlinesGo_bf s [] (by simp)

theorem pySplitlinesGo_ne_nil (s acc : List Char) (hs : s ≠ []) :
    pySplitlinesGo s acc ≠ [] := by
  induction s, acc using pySplitlinesGo.induct with
  | case1 acc hacc => exact absurd rfl hs
  | case2 acc hacc => exact absurd rfl hs
  | case3 cs acc ih =>
    rw [pySplitlinesGo_crlf]
    exact List.cons_ne_nil _ _
  | case4 c cs acc hno hb ih =>
    rw [pySplitlinesGo_step_boundary hno hb]
    exact List.cons_ne_nil _ _
  | case5 c cs acc hno hnb ih =>
    rw [Bool.not_eq_true] at hnb
    rw [pySplitlinesGo_not_boundary hnb]
    rcases cs with _ | ⟨c2, cs'⟩
    · rw [pySplitlinesGo]
      simp
    · exact ih (List.cons_ne_nil _ _)

theorem pySplitlinesGo_accum {l : List Char}
    (hl : ∀ c ∈ l, isLineBoundary c = false) (rest acc : List Char) :
    pySplitlinesGo (l ++ rest) acc =
      pySplitlinesGo rest (l.reverse ++ acc) := by
  induction l generalizing acc with
  | nil => simp
  | cons c l' ih =>
    have hc : isLineBoundary c = false := hl c (by simp)
    rw [List.cons_append, pySplitlinesGo_not_boundary hc,
      ih (fun d hd => hl d (by simp [hd]))]
    congr 1
    simp

theorem joinNL_cons {L : List PStr} (h : L ≠ []) (l : PStr) :
    joinNL (l :: L) = l ++ '\n' :: joinNL L := by
  rcases L with _ | ⟨m, L'⟩
  · exact absurd rfl h
  · rfl

theorem joinNL_append_single {X : List PStr} (hX : X ≠ []) (a : PStr) :
    joinNL (X ++ [a]) = joinNL X ++ '\n' :: a := by
  induction X with
  | nil => exact absurd rfl hX
  | cons x X' ih =>
    rcases X' with _ | ⟨y, X''⟩
    · rfl
    · rw [List.cons_append, joinNL_cons (show (y :: X'') ++ [a] ≠ [] by simp) x,
        ih (by simp), joinNL_cons (show (y : PStr) :: X'' ≠ [] by simp) x]
      simp

theorem mem_joinNL {L : List PStr} {c : Char} (h : c ∈ joinNL L) :
    c = '\n' ∨ ∃ l ∈ L, c ∈ l := by
  induction L with
  | nil => cases h
  | cons l L' ih =>
    rcases L' with _ | ⟨m, L''⟩
    · exact Or.inr ⟨l, by simp, h⟩
    · rw [joinNL_cons (by simp)] at h
      rcases List.mem_append.mp h with h1 | h1
      · exact Or.inr ⟨l, by simp, h1⟩
      · rcases List.mem_cons.mp h1 with rfl | h2
        · exact Or.inl rfl
        · rcases ih h2 with h3 | ⟨m2, hm2, hc2⟩
          · exact Or.inl h3
          · exact Or.inr ⟨m2, by simp [hm2], hc2⟩

/-- Reversal at the line level. -/
def revLines (L : List PStr) : List PStr := (L.map List.reverse).reverse

theorem joinNL_reverse (L : List PStr) :
    (joinNL L).reverse = joinNL (revLines L) := by
  induction L with
  | nil => rfl
  | cons l L' ih =>
    rcases L' with _ | ⟨m, L''⟩
    · simp [revLines, joinNL]
    · rw [joinNL_cons (by simp)]
      have hrl : revLines (l :: m :: L'') = revLines (m :: L'') ++ [l.reverse] := by
        simp [revLines]
      rw [hrl, joinNL_append_single (by simp [revLines]) l.reverse, ← ih]
      simp


theorem pySplitlinesGo_joinNL (s : List Char) :
    ∀ acc, (∀ c ∈ s, isLineBoundary c = true → c = '\n') →
    (∀ c, s.getLast? = some c → c ≠ '\n') →
    joinNL (pySplitlinesGo s acc) = acc.reverse ++ s := by
  induction s with
  | nil =>
    intro acc _ _
    rcases acc with _ | ⟨a, acc'⟩
    · rfl
    · rw [pySplitlinesGo]
      simp [joinNL]
  | cons c cs ih =>
    intro acc hb hlast
    by_cases hbc : isLineBoundary c = true
    · have hc : c = '\n' := hb c (by simp) hbc
      subst hc
      rcases cs with _ | ⟨c2, cs'⟩
      · exact absurd rfl (hlast '\n' (by simp))
      · rw [pySplitlinesGo_step_boundary (by intro cs1 h1; cases h1) hbc]
        have hne := pySplitlinesGo_ne_nil (c2 :: cs') [] (by simp)
        rw [joinNL_cons hne]
        rw [ih [] (fun d hd hbd => hb d (by simp [hd]) hbd)
          (fun d hd => hlast d (by rw [List.getLast?_cons_cons]; exact hd))]
        simp
    · rw [Bool.not_eq_true] at hbc
      rw [pySplitlinesGo_not_boundary hbc]
      rw [ih (c :: acc) (fun d hd hbd => hb d (by simp [hd]) hbd) ?_]
      · simp
      · intro d hd
        apply hlast d
        rcases cs with _ | ⟨c2, cs'⟩
        · simp at hd
        · rw [List.getLast?_cons_cons]
          exact hd

theorem joinNL_pySplitlines {s : PStr}
    (hb : ∀ c ∈ s, isLineBoundary c = true → c = '\n')
    (hlast : ∀ c, s.getLast? = some c → c ≠ '\n') :
    joinNL (pySplitlines s) = s := by
  have := pySplitlinesGo_joinNL s [] hb hlast
  simpa [pySplitlines] using this

theorem pySplitlines_joinNL (L : List PStr)
    (h : ∀ l ∈ L, ∀ c ∈ l, isLineBoundary c = false) :
    pySplitlines (joinNL L) =
      if L.getLast? = some [] then L.dropLast else L := by
  induction L with
  | nil => simp [pySplitlines, pySplitlinesGo, joinNL]
  | cons l L' ih =>
    rcases L' with _ | ⟨m, L''⟩
    · have hl := h l (by simp)
      show pySplitlinesGo (joinNL [l]) [] = _
      rw [show joinNL [l] = l from rfl]
      conv_lhs => rw [← List.append_nil l]
      rw [pySplitlinesGo_accum hl [] []]
      rcases hle : l with _ | ⟨c, l'⟩
      · simp [pySplitlinesGo]
      · rw [pySplitlinesGo]
        simp
    · have hl := h l (by simp)
      show pySplitlinesGo (joinNL (l :: m :: L'')) [] = _
      rw [joinNL_cons (by simp) l, pySplitlinesGo_accum hl _ []]
      rw [pySplitlinesGo_step_boundary (by intro cs1 h1; cases h1) (by decide)]
      have ih2 := ih (fun x hx => h x (by simp [hx]))
      rw [pySplitlines] at ih2
      rw [List.append_nil, List.reverse_reverse, ih2]
      rw [List.getLast?_cons_cons]
      by_cases hlast : (m :: L'').getLast? = some ([] : PStr)
      · rw [if_pos hlast, if_pos hlast]
        rfl
      · rw [if_neg hlast, if_neg hlast]

theorem pySplitlines_joinNL_sub {L : List PStr} {l : PStr}
    (h : ∀ l ∈ L, ∀ c ∈ l, isLineBoundary c = false)
    (hl : l ∈ pySplitlines (joinNL L)) : l ∈ L := by
  rw [pySplitlines_joinNL L h] at hl
  by_cases hc : L.getLast? = some ([] : PStr)
  · rw [if_pos hc] at hl
    exact (List.dropLast_sublist L).subset hl
  · rw [if_neg hc] at hl
    exact hl


/-- A line consisting only of whitespace. -/
def allWsLine (l : PStr) : Bool := l.all isPySpace

/-- Line-level left strip: drop leading all-whitespace lines and left-trim
the first remaining line. -/
def stripLinesL (L : List PStr) : List PStr :=
  match L.dropWhile allWsLine with
  | [] => []
  | l :: rest => pyStripLeft l :: rest

/-- Line-level right strip, obtained from the left one by reversal. -/
def stripLinesR (L : List PStr) : List PStr :=
  revLines (stripLinesL (revLines L))

/-- Line-level strip. -/
def stripLines (L : List PStr) : List PStr := stripLinesR (stripLinesL L)

theorem pyStripLeft_joinNL (L : List PStr) :
    pyStripLeft (joinNL L) = joinNL (stripLinesL L) := by
  induction L with
  | nil => rfl
  | cons l L' ih =>
    by_cases hws : allWsLine l = true
    · have hall : ∀ c ∈ l, isPySpace c = true := by
        simpa [allWsLine, List.all_eq_true] using hws
      rcases L' with _ | ⟨m, L''⟩
      · show pyStripLeft l = joinNL (stripLinesL [l])
        rw [pyStripLeft_all_ws hall]
        simp [stripLinesL, List.dropWhile_cons, hws, joinNL]
      · rw [joinNL_cons (by simp) l]
        have h1 : l ++ '\n' :: joinNL (m :: L'') =
            (l ++ ['\n']) ++ joinNL (m :: L'') := by simp
        rw [h1, pyStripLeft_ws_append (u := l ++ ['\n']) ?_ _, ih]
        · congr 1
          simp [stripLinesL, List.dropWhile_cons, hws]
        · intro c hc
          rcases List.mem_append.mp hc with h2 | h2
          · exact hall c h2
          · rw [List.mem_singleton] at h2
            subst h2
            decide
    · have hnall : ¬ ∀ c ∈ l, isPySpace c = true := by
        intro hcon
        rw [allWsLine, List.all_eq_true] at hws
        exact hws hcon
      rcases L' with _ | ⟨m, L''⟩
      · show pyStripLeft l = joinNL (stripLinesL [l])
        simp [stripLinesL, List.dropWhile_cons, hws, joinNL]
      · rw [joinNL_cons (by simp) l,
          pyStripLeft_append_of_not_all hnall]
        have h2 : stripLinesL (l :: m :: L'') = pyStripLeft l :: m :: L'' := by
          simp [stripLinesL, List.dropWhile_cons, hws]
        rw [h2, @joinNL_cons (m :: L'') (by simp) (pyStripLeft l)]

theorem pyStripRight_joinNL (L : List PStr) :
    pyStripRight (joinNL L) = joinNL (stripLinesR L) := by
  rw [pyStripRight, joinNL_reverse, pyStripLeft_joinNL, stripLinesR,
    ← joinNL_reverse]

theorem pyStrip_joinNL (L : List PStr) :
    pyStrip (joinNL L) = joinNL (stripLines L) := by
  rw [pyStrip, pyStripLeft_joinNL, pyStripRight_joinNL, stripLines]

theorem stripLinesL_mem {L : List PStr} {l : PStr} (h : l ∈ stripLinesL L) :
    ∃ l₀ ∈ L, ∃ pre, (∀ c ∈ pre, isPySpace c = true) ∧ l₀ = pre ++ l := by
  unfold stripLinesL at h
  rcases hd : L.dropWhile allWsLine with _ | ⟨m, rest⟩
  · rw [hd] at h
    cases h
  · rw [hd] at h
    have hsub : m :: rest <:+ L := hd ▸ List.dropWhile_suffix allWsLine
    rcases List.mem_cons.mp h with rfl | h2
    · refine ⟨m, hsub.sublist.subset (by simp), m.takeWhile isPySpace,
        fun c hc => List.mem_takeWhile_imp hc, ?_⟩
      rw [pyStripLeft]
      exact (List.takeWhile_append_dropWhile isPySpace m).symm
    · exact ⟨l, hsub.sublist.subset (by simp [h2]), [], by simp, by simp⟩

theorem mem_revLines {L : List PStr} {l : PStr} :
    l ∈ revLines L ↔ l.reverse ∈ L := by
  rw [revLines, List.mem_reverse, List.mem_map]
  constructor
  · rintro ⟨a, ha, rfl⟩
    simpa using ha
  · intro h
    exact ⟨l.reverse, h, by simp⟩

theorem stripLinesR_mem {L : List PStr} {l : PStr} (h : l ∈ stripLinesR L) :
    ∃ l₀ ∈ L, ∃ post, (∀ c ∈ post, isPySpace c = true) ∧ l₀ = l ++ post := by
  rw [stripLinesR, mem_revLines] at h
  obtain ⟨m, hm, pre, hws, hpre⟩ := stripLinesL_mem h
  rw [mem_revLines] at hm
  refine ⟨m.reverse, hm, pre.reverse,
    fun c hc => hws c (List.mem_reverse.mp hc), ?_⟩
  rw [hpre]
  simp

theorem stripLines_mem {L : List PStr} {l : PStr} (h : l ∈ stripLines L) :
    ∃ l₀ ∈ L, ∃ pre post, (∀ c ∈ pre, isPySpace c = true) ∧
      (∀ c ∈ post, isPySpace c = true) ∧ l₀ = pre ++ l ++ post := by
  rw [stripLines] at h
  obtain ⟨l₁, hl₁, post, hpost, hpost_eq⟩ := stripLinesR_mem h
  obtain ⟨l₀, hl₀, pre, hpre, hpre_eq⟩ := stripLinesL_mem hl₁
  refine ⟨l₀, hl₀, pre, post, hpre, hpost, ?_⟩
  rw [hpre_eq, hpost_eq]
  simp

theorem stripLines_bf {L : List PStr}
    (h : ∀ l ∈ L, ∀ c ∈ l, isLineBoundary c = false) :
    ∀ l ∈ stripLines L, ∀ c ∈ l, isLineBoundary c = false := by
  intro l hl c hc
  obtain ⟨l₀, hl₀, pre, post, _, _, heq⟩ := stripLines_mem hl
  exact h l₀ hl₀ c (by rw [heq]; simp [hc])


theorem pySplitGo_ws {w : List Char} (hw : ∀ c ∈ w, isPySpace c = true) :
    ∀ acc, pySplitGo w acc = pySplitGo [] acc := by
  induction w with
  | nil => intro acc; rfl
  | cons c w' ih =>
    intro acc
    have hc := hw c (by simp)
    have ih' := ih (fun d hd => hw d (by simp [hd]))
    rcases acc with _ | ⟨a, acc'⟩ <;>
      simp [pySplitGo, hc, ih' []]

theorem pySplitGo_append_ws (v : List Char) {w : List Char}
    (hw : ∀ c ∈ w, isPySpace c = true) :
    ∀ acc, pySplitGo (v ++ w) acc = pySplitGo v acc := by
  induction v with
  | nil =>
    intro acc
    rw [List.nil_append, pySplitGo_ws hw]
  | cons c v' ih =>
    intro acc
    by_cases hc : isPySpace c = true <;>
      simp [pySplitGo, hc, ih]

theorem pySplit_ws_append {u : List Char} (hu : ∀ c ∈ u, isPySpace c = true)
    (x : List Char) : pySplit (u ++ x) = pySplit x := by
  unfold pySplit
  induction u with
  | nil => rfl
  | cons c u' ih =>
    have hc := hu c (by simp)
    rw [List.cons_append]
    rw [show pySplitGo (c :: (u' ++ x)) [] = pySplitGo (u' ++ x) [] by
      simp [pySplitGo, hc]]
    exact ih (fun d hd => hu d (by simp [hd]))

theorem pySplit_sandwich {u w : List Char} (hu : ∀ c ∈ u, isPySpace c = true)
    (hw : ∀ c ∈ w, isPySpace c = true) (v : List Char) :
    pySplit (u ++ v ++ w) = pySplit v := by
  rw [List.append_assoc, pySplit_ws_append hu]
  unfold pySplit
  exact pySplitGo_append_ws v hw []

theorem hasSubstr_iff_parts (p s : List Char) :
    hasSubstr p s = true ↔ ∃ x y, s = x ++ p ++ y := by
  rw [hasSubstr_iff_drop]
  constructor
  · rintro ⟨n, hn⟩
    obtain ⟨y, hy⟩ := (startsWithL_iff _ _).mp hn
    refine ⟨s.take n, y, ?_⟩
    conv_lhs => rw [← List.take_append_drop n s]
    rw [hy, List.append_assoc]
  · rintro ⟨x, y, rfl⟩
    refine ⟨x.length, ?_⟩
    rw [List.append_assoc, List.drop_left]
    exact (startsWithL_iff _ _).mpr ⟨y, rfl⟩

theorem hasSubstr_reverse (p s : List Char) :
    hasSubstr p.reverse s.reverse = hasSubstr p s := by
  rw [Bool.eq_iff_iff, hasSubstr_iff_parts, hasSubstr_iff_parts]
  constructor
  · rintro ⟨x, y, he⟩
    refine ⟨y.reverse, x.reverse, ?_⟩
    rw [← List.reverse_reverse s, he]
    simp
  · rintro ⟨x, y, rfl⟩
    refine ⟨y.reverse, x.reverse, ?_⟩
    simp

theorem hasSubstr_ws_left {p : List Char} {c0 : Char} (hp : p.head? = some c0)
    (hc0 : isPySpace c0 = false) {u : List Char}
    (hu : ∀ c ∈ u, isPySpace c = true) (s : List Char) :
    hasSubstr p (u ++ s) = hasSubstr p s := by
  induction u with
  | nil => rfl
  | cons c u' ih =>
    rw [List.cons_append, hasSubstr]
    have hsw : startsWithL p (c :: (u' ++ s)) = false := by
      rcases p with _ | ⟨p0, p'⟩
      · simp at hp
      · rw [List.head?_cons, Option.some.injEq] at hp
        subst hp
        rw [startsWithL]
        have : ¬ (p0 = c) := by
          intro he
          rw [he] at hc0
          rw [hu c (by simp)] at hc0
          cases hc0
        simp [this]
    rw [hsw, Bool.false_or]
    exact ih (fun d hd => hu d (by simp [hd]))

theorem hasSubstr_ws_right {p : List Char} {cl : Char}
    (hp : p.getLast? = some cl) (hcl : isPySpace cl = false)
    {w : List Char} (hw : ∀ c ∈ w, isPySpace c = true) (s : List Char) :
    hasSubstr p (s ++ w) = hasSubstr p s := by
  rw [← hasSubstr_reverse p (s ++ w), ← hasSubstr_reverse p s]
  rw [List.reverse_append]
  exact hasSubstr_ws_left (by rw [List.head?_reverse]; exact hp) hcl
    (fun c hc => hw c (List.mem_reverse.mp hc)) _

theorem hasSubstr_sandwich (p : List Char)
    (h0 : (match p.head? with
           | some c => !isPySpace c
           | none => false) = true)
    (h1 : (match p.getLast? with
           | some c => !isPySpace c
           | none => false) = true)
    {u w : List Char} (hu : ∀ c ∈ u, isPySpace c = true)
    (hw : ∀ c ∈ w, isPySpace c = true) (v : List Char) :
    hasSubstr p (u ++ v ++ w) = hasSubstr p v := by
  rcases hh : p.head? with _ | c0
  · rw [hh] at h0
    cases h0
  · rcases hg : p.getLast? with _ | cl
    · rw [hg] at h1
      cases h1
    · rw [hh] at h0
      rw [hg] at h1
      rw [Bool.not_eq_true'] at h0 h1
      rw [List.append_assoc, hasSubstr_ws_left hh h0 hu,
        hasSubstr_ws_right hg h1 hw]

theorem lowerStr_ws {u : List Char} (hu : ∀ c ∈ u, isPySpace c = true) :
    ∀ c ∈ lowerStr u, isPySpace c = true := by
  intro c hc
  rw [lowerStr, List.mem_map] at hc
  obtain ⟨e, he, rfl⟩ := hc
  rw [toLower_of_isPySpace (hu e he)]
  exact hu e he

theorem lowerStr_append3 (u v w : List Char) :
    lowerStr (u ++ v ++ w) = lowerStr u ++ lowerStr v ++ lowerStr w := by
  simp [lowerStr]

theorem cookieDrop_wsTrim {l pre post : PStr}
    (hpre : ∀ c ∈ pre, isPySpace c = true)
    (hpost : ∀ c ∈ post, isPySpace c = true) :
    cookieDrop (pre ++ l ++ post) = cookieDrop l := by
  unfold cookieDrop
  rw [pySplit_sandwich hpre hpost]
  congr 1
  rw [lowerStr_append3]
  have h1 := lowerStr_ws hpre
  have h2 := lowerStr_ws hpost
  simp only [cookiePatterns, List.any_cons, List.any_nil]
  rw [hasSubstr_sandwich ("we use cookies".toList) (by decide) (by decide) h1 h2,
    hasSubstr_sandwich ("cookie policy".toList) (by decide) (by decide) h1 h2,
    hasSubstr_sandwich ("accept all".toList) (by decide) (by decide) h1 h2,
    hasSubstr_sandwich ("reject all".toList) (by decide) (by decide) h1 h2,
    hasSubstr_sandwich ("gdpr".toList) (by decide) (by decide) h1 h2,
    hasSubstr_sandwich ("privacy settings".toList) (by decide) (by decide) h1 h2]

theorem navDrop_wsTrim {l pre post : PStr}
    (hpre : ∀ c ∈ pre, isPySpace c = true)
    (hpost : ∀ c ∈ post, isPySpace c = true) :
    navDrop (pre ++ l ++ post) = navDrop l := by
  unfold navDrop
  rw [lowerStr_append3, pyStrip_sandwich (lowerStr_ws hpre) (lowerStr_ws hpost)]


theorem remove_cookie_banners_fixed {s : PStr}
    (hcookie : ∀ l ∈ pySplitlines s, cookieDrop l = false)
    (hjoin : joinNL (pySplitlines s) = s) :
    remove_cookie_banners s = s := by
  rw [remove_cookie_banners, List.filter_eq_self.mpr ?_, hjoin]
  intro l hl
  rw [hcookie l hl]
  rfl

theorem remove_navigation_fixed {s : PStr}
    (hnav : ∀ l ∈ pySplitlines s, navDrop l = false)
    (hjoin : joinNL (pySplitlines s) = s) :
    remove_navigation s = s := by
  rw [remove_navigation, List.filter_eq_self.mpr ?_, hjoin]
  intro l hl
  rw [hnav l hl]
  rfl

theorem clean_fixed_point {s : PStr}
    (hcookie : ∀ l ∈ pySplitlines s, cookieDrop l = false)
    (hnav : ∀ l ∈ pySplitlines s, navDrop l = false)
    (hjoin : joinNL (pySplitlines s) = s)
    (hstrip : pyStrip s = s) :
    clean_extracted_text s = s := by
  rw [clean_extracted_text, remove_cookie_banners_fixed hcookie hjoin,
    remove_navigation_fixed hnav hjoin, hstrip]

/-- C6: the Content Cleaner is idempotent: cleaning a second time changes
nothing. -/
theorem C6_cleaner_idempotent (t : PStr) :
    clean_extracted_text (clean_extracted_text t) = clean_extracted_text t := by
  have hc1bf : ∀ l ∈ (pySplitlines t).filter (fun l => !cookieDrop l),
      ∀ c ∈ l, isLineBoundary c = false :=
    fun l hl => pySplitlines_bf t l (List.mem_of_mem_filter hl)
  have hL2sub : ∀ l ∈ pySplitlines (joinNL
      ((pySplitlines t).filter (fun l => !cookieDrop l))),
      l ∈ (pySplitlines t).filter (fun l => !cookieDrop l) :=
    fun l hl => pySplitlines_joinNL_sub hc1bf hl
  -- the line list after the navigation filter
  set n1 := (pySplitlines (joinNL
    ((pySplitlines t).filter (fun l => !cookieDrop l)))).filter
    (fun l => !navDrop l) with hn1def
  have hr : clean_extracted_text t = pyStrip (joinNL n1) := rfl
  have hn1c : ∀ l ∈ n1, cookieDrop l = false := by
    intro l hl
    have h2 := hL2sub l (List.mem_of_mem_filter (hn1def ▸ hl))
    have := List.of_mem_filter h2
    simpa using this
  have hn1n : ∀ l ∈ n1, navDrop l = false := by
    intro l hl
    have := List.of_mem_filter (hn1def ▸ hl)
    simpa using this
  have hn1bf : ∀ l ∈ n1, ∀ c ∈ l, isLineBoundary c = false :=
    fun l hl => hc1bf l (hL2sub l (List.mem_of_mem_filter (hn1def ▸ hl)))
  have hr2 : clean_extracted_text t = joinNL (stripLines n1) := by
    rw [hr, pyStrip_joinNL]
  have hSbf : ∀ l ∈ stripLines n1, ∀ c ∈ l, isLineBoundary c = false :=
    stripLines_bf hn1bf
  apply clean_fixed_point
  · intro l hl
    rw [hr2] at hl
    have hl' : l ∈ stripLines n1 := pySplitlines_joinNL_sub hSbf hl
    obtain ⟨l₀, hl₀, pre, post, hpre, hpost, heq⟩ := stripLines_mem hl'
    have hx := hn1c l₀ hl₀
    rw [heq, cookieDrop_wsTrim hpre hpost] at hx
    exact hx
  · intro l hl
    rw [hr2] at hl
    have hl' : l ∈ stripLines n1 := pySplitlines_joinNL_sub hSbf hl
    obtain ⟨l₀, hl₀, pre, post, hpre, hpost, heq⟩ := stripLines_mem hl'
    have hx := hn1n l₀ hl₀
    rw [heq, navDrop_wsTrim hpre hpost] at hx
    exact hx
  · apply joinNL_pySplitlines
    · intro c hcmem hbc
      rw [hr2] at hcmem
      rcases mem_joinNL hcmem with h | ⟨l, hlmem, hcl⟩
      · exact h
      · rw [hSbf l hlmem c hcl] at hbc
        cases hbc
    · intro c hgl
      rw [hr] at hgl
      have hws := pyStrip_getLast_not_ws hgl
      intro he
      subst he
      rw [newline_isPySpace] at hws
      cases hws
  · rw [hr]
    exact pyStrip_idem _


/-- Cookie-line drop condition as the claim words it: matches one of the
six cookie phrases case-insensitively and has fewer than 15 words. -/
def specCookieDrop (line : PStr) : Bool :=
  (cookiePatterns.any (fun pat => hasSubstr pat (lowerStr line))) &&
    decide ((pySplit line).length < 15)

/-- Navigation-line drop condition as the claim words it: the trimmed
lowercase form contains one of the four navigation phrases and has at most
5 words. -/
def specNavDrop (line : PStr) : Bool :=
  (navPhrases.any (fun ph => hasSubstr ph (pyStrip (lowerStr line)))) &&
    decide ((pySplit (pyStrip (lowerStr line))).length ≤ 5)

/-- The cleaner as the claim describes it, with the one correction that
survivors are rejoined with the newline character: drop the cookie lines,
then from the remaining lines drop the navigation lines, rejoin with a
newline, trim the ends. -/
def specClean (t : PStr) : PStr :=
  pyStrip (joinNL (((pySplitlines t).filter
    (fun l => !specCookieDrop l)).filter (fun l => !specNavDrop l)))

theorem specCookieDrop_eq (l : PStr) : specCookieDrop l = cookieDrop l := by
  rw [specCookieDrop, cookieDrop, Bool.and_comm]

theorem specNavDrop_eq (l : PStr) : specNavDrop l = navDrop l := rfl

theorem navDrop_nil : navDrop [] = false := by decide

/-- C9 (amended): the cleaner drops exactly the claim's cookie lines, then
exactly the claim's navigation lines, and rejoins the survivors with the
newline character before trimming — the code's intermediate join/split
round trip is observationally the single-pass line-level description. -/
theorem C9_cleaner_line_filters (t : PStr) :
    clean_extracted_text t = specClean t := by
  have hc1bf : ∀ l ∈ (pySplitlines t).filter (fun l => !cookieDrop l),
      ∀ c ∈ l, isLineBoundary c = false :=
    fun l hl => pySplitlines_bf t l (List.mem_of_mem_filter hl)
  have hsplit := pySplitlines_joinNL _ hc1bf
  have hspec : specClean t = pyStrip (joinNL (((pySplitlines t).filter
      (fun l => !cookieDrop l)).filter (fun l => !navDrop l))) := by
    have h1 : (fun l : PStr => !specCookieDrop l) = (fun l => !cookieDrop l) := by
      funext l
      rw [specCookieDrop_eq]
    have h2 : (fun l : PStr => !specNavDrop l) = (fun l => !navDrop l) := by
      funext l
      rw [specNavDrop_eq]
    rw [specClean, h1, h2]
  rw [hspec, clean_extracted_text, remove_navigation, remove_cookie_banners,
    hsplit]
  by_cases hlast : ((pySplitlines t).filter
      (fun l => !cookieDrop l)).getLast? = some ([] : PStr)
  · rw [if_pos hlast]
    set c1 := (pySplitlines t).filter (fun l => !cookieDrop l) with hc1
    have hc1ne : c1 ≠ [] := by
      intro he
      rw [he] at hlast
      cases hlast
    have hdecomp : c1 = c1.dropLast ++ [[]] := by
      conv_lhs => rw [← List.dropLast_append_getLast hc1ne]
      congr 1
      have := List.getLast?_eq_getLast c1 hc1ne
      rw [this] at hlast
      rw [← Option.some.inj hlast]
    conv_rhs => rw [hdecomp]
    rw [List.filter_append]
    rw [show List.filter (fun l => !navDrop l) [([] : PStr)] = [[]] by
      simp [navDrop_nil]]
    rcases hY : c1.dropLast.filter (fun l => !navDrop l) with _ | ⟨y, Y'⟩
    · simp [joinNL]
    · rw [joinNL_append_single (by simp) ([] : PStr)]
      have h3 : joinNL (y :: Y') ++ '\n' :: ([] : PStr) =
          [] ++ joinNL (y :: Y') ++ ['\n'] := by simp
      rw [h3, pyStrip_sandwich (by simp) ?_ (joinNL (y :: Y'))]
      intro c hc
      rw [List.mem_singleton] at hc
      subst hc
      decide
  · rw [if_neg hlast]

/-- Counterexample for C9's "rejoined with the original line separator":
the input "aa\r\nbb" loses no line to either filter, yet cleaning yields
"aa\nbb" — the CRLF separator is replaced by a bare newline, so the output
differs from the claimed rejoin-with-original-separator result "aa\r\nbb". -/
theorem C9_counterexample :
    clean_extracted_text "aa\r\nbb".toList = "aa\nbb".toList ∧
    (pySplitlines "aa\r\nbb".toList).all
      (fun l => !cookieDrop l && !navDrop l) = true ∧
    "aa\nbb".toList ≠ "aa\r\nbb".toList :=
  ⟨by decide, by decide, by decide⟩

end Scraper
